import Mathlib

/-!
Shallow embedding of the tile loading and caching subsystem of the
`openearth` repository (files `src/src/data/TileLoader.ts` — which holds
both `TileLoader`/`LoadingQueue` and `TileCache` —, `src/src/data/DataSource.ts`,
`src/src/utils/NetworkManager.ts`, `src/src/types/index.ts`), together with
theorems settling the spec claims about it.

Modelling conventions:
* JavaScript numbers used as integer counters are modelled as `Int`
  (additions and subtractions never truncate); byte sizes and timestamps,
  which are always non-negative, are `Nat`.
* `Date.now()` is passed in explicitly as a `now : Nat` parameter.
* The `Map<string, …>` plus doubly-linked-list pair of `TileCache` is
  modelled as an association list `map` (first-match lookup, like `Map`)
  together with a recency list `order` (head = most recently used,
  last = least recently used; `addFirst` = cons, `removeLast` = drop last).
* `while` loops whose bound is the number of cached entries are modelled
  with that number as explicit fuel; on the consistent states the code can
  actually reach, the fuel is never exhausted (proved below), and on
  inconsistent states the JS loop would not terminate at all.
-/

namespace OpenEarth

/-- Task priority enumeration, `TaskPriority` in `src/src/types/index.ts`. -/
inductive TaskPriority where
  | HIGH
  | NORMAL
  | LOW
deriving DecidableEq, Repr

/-- Tile identity, `TileKey` in `src/src/types/index.ts`. -/
structure TileKey where
  x : Int
  y : Int
  z : Int
  source : String
  layer : String
deriving DecidableEq, Repr

/-- Canonical string form of a key, `TileKeyUtils.toString`:
the string `source:layer:z:x:y`. -/
def tileKeyToString (k : TileKey) : String :=
  k.source ++ ":" ++ k.layer ++ ":" ++ k.z.repr ++ ":" ++ k.x.repr ++ ":" ++ k.y.repr

/-- Payload bytes, modelling the JS `ArrayBuffer` a fetch returns. -/
structure ArrayBufferM where
  bytes : List Nat
deriving DecidableEq, Repr

/-- The `byteLength` property of an `ArrayBuffer`. -/
def ArrayBufferM.byteLength (b : ArrayBufferM) : Nat := b.bytes.length

/-- Cached tile value, interface `Tile` in `TileCache.ts`. -/
structure Tile where
  key : TileKey
  data : ArrayBufferM
  isLoaded : Bool
  loadTime : Nat
  lastAccessed : Nat
  size : Nat
deriving DecidableEq, Repr

/-- Tile construction on a successful fetch, `TileLoader._executeLoadTask`
lines 400-407: `size` is the payload's `byteLength`, both timestamps are
`Date.now()`. -/
def mkLoadedTile (key : TileKey) (data : ArrayBufferM) (now : Nat) : Tile :=
  { key := key
    data := data
    isLoaded := true
    loadTime := now
    lastAccessed := now
    size := data.byteLength }

/-- First-match association-list lookup, modelling `Map.get`. -/
def lookupKey : List (String × Tile) → String → Option Tile
  | [], _ => none
  | e :: rest, k => if e.1 = k then some e.2 else lookupKey rest k

/-- Removal of the (first) entry with the given key, modelling `Map.delete`. -/
def eraseKey : List (String × Tile) → String → List (String × Tile)
  | [], _ => []
  | e :: rest, k => if e.1 = k then rest else e :: eraseKey rest k

/-- In-place update of the entry with the given key, modelling
`existingEntry.tile = tile` on the stored record. -/
def replaceValue (m : List (String × Tile)) (k : String) (t : Tile) :
    List (String × Tile) :=
  m.map (fun e => if e.1 = k then (k, t) else e)

/-- Moving a key to the head of the recency list, `LinkedList.moveToFirst`. -/
def moveToFirst (k : String) (order : List String) : List String :=
  k :: order.erase k

/-- Total byte size of all stored tiles. -/
def sumSizes (m : List (String × Tile)) : Int :=
  (m.map (fun e => (e.2.size : Int))).sum

/-- State of `TileCache` (`src/src/data/TileLoader.ts` / `TileCache.ts`):
the entry map, the recency list, the two bounds, and the counters, exactly
the mutable fields of the class. -/
structure TileCache where
  map : List (String × Tile)
  order : List String
  maxSize : Nat
  maxMemory : Nat
  currentSize : Int
  currentMemory : Int
  hitCount : Nat
  missCount : Nat
  evictionCount : Nat
deriving DecidableEq, Repr

/-- The `TileCache` constructor. -/
def mkTileCache (maxSize maxMemory : Nat) : TileCache :=
  { map := []
    order := []
    maxSize := maxSize
    maxMemory := maxMemory
    currentSize := 0
    currentMemory := 0
    hitCount := 0
    missCount := 0
    evictionCount := 0 }

/-- `TileCache.get`: a hit refreshes `lastAccessed`, promotes the entry to
most-recently-used and bumps the hit counter; a miss bumps the miss
counter.  Returns the (refreshed) tile alongside the updated cache. -/
def TileCache.get (c : TileCache) (key : String) (now : Nat) :
    Option Tile × TileCache :=
  match lookupKey c.map key with
  | some t =>
      let t2 := { t with lastAccessed := now }
      (some t2,
        { c with
            map := replaceValue c.map key t2
            order := moveToFirst key c.order
            hitCount := c.hitCount + 1 })
  | none => (none, { c with missCount := c.missCount + 1 })

/-- `TileCache.evictLRU`: pop the least-recently-used key off the recency
list; if it is still in the map, drop its entry, adjust the counters and
bump `evictionCount`. -/
def TileCache.evictLRU (c : TileCache) : TileCache :=
  match c.order.getLast? with
  | none => c
  | some key =>
      let c1 := { c with order := c.order.dropLast }
      match lookupKey c1.map key with
      | some t =>
          { c1 with
              map := eraseKey c1.map key
              currentSize := c1.currentSize - 1
              currentMemory := c1.currentMemory - (t.size : Int)
              evictionCount := c1.evictionCount + 1 }
      | none => c1

/-- First loop of `TileCache.evictIfNecessary`:
`while (currentSize > maxSize) evictLRU()`, with the recency-list length
as fuel (each effective iteration shortens the list by one; with an empty
list and the guard still true the JS loop would never terminate). -/
def TileCache.evictCountLoop : Nat → TileCache → TileCache
  | 0, c => c
  | n + 1, c =>
      if (c.maxSize : Int) < c.currentSize then
        TileCache.evictCountLoop n c.evictLRU
      else c

/-- Second loop of `TileCache.evictIfNecessary`:
`while (currentMemory > maxMemory && currentSize > 0) evictLRU()`. -/
def TileCache.evictMemLoop : Nat → TileCache → TileCache
  | 0, c => c
  | n + 1, c =>
      if (c.maxMemory : Int) < c.currentMemory ∧ 0 < c.currentSize then
        TileCache.evictMemLoop n c.evictLRU
      else c

/-- `TileCache.evictIfNecessary`: enforce the count bound, then the byte
bound. -/
def TileCache.evictIfNecessary (c : TileCache) : TileCache :=
  let c1 := TileCache.evictCountLoop c.order.length c
  TileCache.evictMemLoop c1.order.length c1

/-- The mutation part of `TileCache.set` before eviction: an existing key
is updated in place (memory re-accounted) and promoted; a new key is added
at the head with both counters bumped. -/
def TileCache.setRaw (c : TileCache) (key : String) (tile : Tile) : TileCache :=
  match lookupKey c.map key with
  | some old =>
      { c with
          map := replaceValue c.map key tile
          currentMemory := c.currentMemory - (old.size : Int) + (tile.size : Int)
          order := moveToFirst key c.order }
  | none =>
      { c with
          map := (key, tile) :: c.map
          order := key :: c.order
          currentSize := c.currentSize + 1
          currentMemory := c.currentMemory + (tile.size : Int) }

/-- `TileCache.set`: mutate, then `evictIfNecessary`. -/
def TileCache.set (c : TileCache) (key : String) (tile : Tile) : TileCache :=
  (c.setRaw key tile).evictIfNecessary

/-- `TileCache.remove`: drop the entry if present; returns whether an entry
was removed.  Note it does not touch `evictionCount`. -/
def TileCache.remove (c : TileCache) (key : String) : Bool × TileCache :=
  match lookupKey c.map key with
  | some t =>
      (true,
        { c with
            map := eraseKey c.map key
            order := c.order.erase key
            currentSize := c.currentSize - 1
            currentMemory := c.currentMemory - (t.size : Int) })
  | none => (false, c)

/-- `TileCache.clear`: empty both containers and zero the size counters
(hit/miss/eviction counters are kept). -/
def TileCache.clear (c : TileCache) : TileCache :=
  { c with map := [], order := [], currentSize := 0, currentMemory := 0 }

/-- Loop body of `TileCache.evictPercentage` for a given target count
`n = Math.ceil(currentSize * percentage)` (the only use the code makes of
the floating-point `percentage` argument is to compute that integer, so
the model takes the target count itself as the parameter): evict up to `n`
LRU entries, stopping early when the cache becomes empty. -/
def TileCache.evictN (c : TileCache) : Nat → TileCache
  | 0 => c
  | n + 1 =>
      let c1 := c.evictLRU
      if c1.currentSize = 0 then c1 else c1.evictN n

/-- `TileCache.evictByAge`: collect the keys whose `lastAccessed` is older
than `maxAge`, then `remove` each of them (note: `remove`, not `evictLRU`,
so `evictionCount` is untouched). -/
def TileCache.evictByAge (c : TileCache) (now maxAge : Nat) : TileCache :=
  let keysToEvict :=
    (c.map.filter (fun e => (maxAge : Int) < (now : Int) - (e.2.lastAccessed : Int))).map
      Prod.fst
  keysToEvict.foldl (fun acc k => (acc.remove k).2) c

/-- Consistency of a `TileCache` state: the counters agree with the entry
map, keys are not duplicated, and the recency list holds exactly the mapped
keys.  The constructor establishes it and every operation preserves it. -/
structure TileCache.WF (c : TileCache) : Prop where
  sizeOk : c.currentSize = (c.map.length : Int)
  memOk : c.currentMemory = sumSizes c.map
  keysNodup : (c.map.map Prod.fst).Nodup
  orderPerm : c.order.Perm (c.map.map Prod.fst)

/-- Pending load request, interface `LoadingTask` in `TileLoader.ts` (the
`promise`/`abortController` handles are identity-free runtime objects and
carry no data relevant to the claims). -/
structure LoadingTask where
  tileKey : TileKey
  priority : TaskPriority
  retryCount : Nat
  maxRetries : Nat
  createdAt : Nat
deriving DecidableEq, Repr

/-- `LoadingQueue._getPriorityValue`. -/
def priorityValue : TaskPriority → Nat
  | .HIGH => 3
  | .NORMAL => 2
  | .LOW => 1

/-- `LoadingQueue._insertByPriority`: insert before the first task of
strictly lower priority, after all tasks of priority at least as high
(default: append at the end). -/
def insertByPriority (t : LoadingTask) : List LoadingTask → List LoadingTask
  | [] => [t]
  | x :: xs =>
      if priorityValue x.priority < priorityValue t.priority then t :: x :: xs
      else x :: insertByPriority t xs

/-- Map/queue key of a task, the idiom `TileKeyUtils.toString(t.tileKey)`
used throughout `LoadingQueue`. -/
def taskKey (t : LoadingTask) : String := tileKeyToString t.tileKey

/-- Split a task list around the first task with the given key, returning
the tasks before it, the task itself, and the tasks after it: the combined
effect of the `findIndex` / index access / `splice(i, 1)` trio the queue
uses. -/
def findTask (key : String) : List LoadingTask →
    Option (List LoadingTask × LoadingTask × List LoadingTask)
  | [] => none
  | t :: ts =>
      if taskKey t = key then some ([], t, ts)
      else
        match findTask key ts with
        | none => none
        | some (pre, ex, post) => some (t :: pre, ex, post)

/-- State of `LoadingQueue`: the pending task list (priority order), the
active key set (a JS `Set`, modelled as a duplicate-free list), and the
concurrency ceiling. -/
structure LoadingQueue where
  tasks : List LoadingTask
  active : List String
  maxConcurrent : Nat
deriving DecidableEq, Repr

/-- The `LoadingQueue` constructor. -/
def mkLoadingQueue (maxConcurrent : Nat) : LoadingQueue :=
  { tasks := [], active := [], maxConcurrent := maxConcurrent }

/-- `Set.add` on the active-key set: inserting a present element is a
no-op. -/
def setAdd (k : String) (s : List String) : List String :=
  if k ∈ s then s else k :: s

/-- `LoadingQueue.enqueue`: a task whose key is already pending is not
duplicated; it is escalated (spliced out and re-inserted at HIGH) exactly
when the new request is HIGH and the existing task is not.  A new key is
inserted by priority. -/
def LoadingQueue.enqueue (q : LoadingQueue) (task : LoadingTask) : LoadingQueue :=
  match findTask (taskKey task) q.tasks with
  | some (pre, existing, post) =>
      if task.priority = TaskPriority.HIGH ∧ existing.priority ≠ TaskPriority.HIGH then
        { q with
            tasks := insertByPriority { existing with priority := TaskPriority.HIGH }
              (pre ++ post) }
      else q
  | none => { q with tasks := insertByPriority task q.tasks }

/-- `LoadingQueue.dequeue`: `null` when the queue is empty or the active
set has reached the ceiling; otherwise shift the head task and add its key
to the active set. -/
def LoadingQueue.dequeue (q : LoadingQueue) : Option LoadingTask × LoadingQueue :=
  if q.tasks.length = 0 ∨ q.maxConcurrent ≤ q.active.length then (none, q)
  else
    match q.tasks with
    | [] => (none, q)
    | t :: rest =>
        (some t, { q with tasks := rest, active := setAdd (taskKey t) q.active })

/-- `LoadingQueue.remove`: splice out the first pending task with the key
(if any) and delete the key from the active set. -/
def LoadingQueue.remove (q : LoadingQueue) (key : String) : LoadingQueue :=
  let tasks2 :=
    match findTask key q.tasks with
    | some (pre, _, post) => pre ++ post
    | none => q.tasks
  { q with tasks := tasks2, active := q.active.erase key }

/-- `LoadingQueue.clear`. -/
def LoadingQueue.clear (q : LoadingQueue) : LoadingQueue :=
  { q with tasks := [], active := [] }

/-- One public mutation of the loading queue, for stating reachability
invariants. -/
inductive QueueOp where
  | enqueue (t : LoadingTask)
  | dequeue
  | remove (key : String)
  | clear
deriving Repr

/-- Apply a queue operation. -/
def LoadingQueue.applyOp (q : LoadingQueue) : QueueOp → LoadingQueue
  | .enqueue t => q.enqueue t
  | .dequeue => (q.dequeue).2
  | .remove k => q.remove k
  | .clear => q.clear

/-- `TileLoader._processQueue`: dequeue repeatedly (each dequeue moves a
task's key into the active set; the task's promise is already running, so
no further effect) until the queue is empty or the ceiling is reached.
The pending-list length bounds the number of successful dequeues and
serves as fuel. -/
def processQueueLoop : Nat → LoadingQueue → LoadingQueue
  | 0, q => q
  | n + 1, q =>
      match q.dequeue with
      | (none, q2) => q2
      | (some _, q2) => processQueueLoop n q2

/-- Drain entry point used by `loadTile`. -/
def processQueue (q : LoadingQueue) : LoadingQueue :=
  processQueueLoop q.tasks.length q

/-- Sequence of tasks returned by repeated `dequeue` calls, stopping at the
first `null`. -/
def LoadingQueue.drain : Nat → LoadingQueue → List LoadingTask
  | 0, _ => []
  | n + 1, q =>
      match q.dequeue with
      | (none, _) => []
      | (some t, q2) => t :: LoadingQueue.drain n q2

/-- Failure of one fetch attempt inside `NetworkManager.executeRequest`:
a non-ok HTTP response (thrown as an error), an `AbortError` rejection
(per-attempt timeout or external abort), or a `TypeError` rejection
(transport failure). -/
inductive AttemptError where
  | httpError (status : Nat)
  | abortError
  | networkError
deriving DecidableEq, Repr

/-- Successful response as consumed by the tile loader (`response.data`
is an `ArrayBuffer` for tile content types). -/
structure NetResponse where
  data : ArrayBufferM
  status : Nat
deriving DecidableEq, Repr

/-- Classified request error (`RequestError` in `NetworkManager.ts`); the
environment-specific `message` string is represented by the underlying
attempt failure itself. -/
structure RequestError where
  cause : AttemptError
  isTimeout : Bool
  isAborted : Bool
  isNetworkError : Bool
deriving DecidableEq, Repr

/-- Error classification in the catch-block of `executeRequest` lines
390-400: `isAborted` iff the attempt rejected with `AbortError`,
`isTimeout` iff aborted but not by the external signal, `isNetworkError`
iff the rejection was a `TypeError`. -/
def classifyError (o : AttemptError) (extAborted : Bool) : RequestError :=
  let isAb : Bool := match o with | .abortError => true | _ => false
  { cause := o
    isTimeout := isAb && !extAborted
    isAborted := isAb
    isNetworkError := match o with | .networkError => true | _ => false }

/-- Attempt loop of `NetworkManager.executeRequest`
(`for (attempt = 0; attempt <= retries; attempt++)`): `outcomes a` is what
the transport does on attempt `a`, `extAborted a` whether the external
abort signal is set when attempt `a` fails.  A failed attempt stops the
loop when it was the last allowed one (`attempt === retries`) or when the
caller aborted; otherwise the loop retries after the exponential backoff
delay (time is not modelled).  Returns the result together with the number
of attempts performed; `fuel` starts at `retries + 1`, exactly the
iteration count of the `for` loop. -/
def executeRequestGo (outcomes : Nat → Except AttemptError NetResponse)
    (extAborted : Nat → Bool) (retries : Nat) :
    Nat → Nat → Except RequestError NetResponse × Nat
  | 0, attempt => (Except.error (classifyError AttemptError.abortError false), attempt)
  | fuel + 1, attempt =>
      match outcomes attempt with
      | Except.ok r => (Except.ok r, attempt + 1)
      | Except.error o =>
          let e := classifyError o (extAborted attempt)
          if attempt = retries ∨ (e.isAborted = true ∧ extAborted attempt = true) then
            (Except.error e, attempt + 1)
          else
            executeRequestGo outcomes extAborted retries fuel (attempt + 1)

/-- `NetworkManager.executeRequest` (as reached through
`networkManager.get`). -/
def executeRequest (outcomes : Nat → Except AttemptError NetResponse)
    (extAborted : Nat → Bool) (retries : Nat) :
    Except RequestError NetResponse × Nat :=
  executeRequestGo outcomes extAborted retries (retries + 1) 0

/-- Character-list prefix test (`candidate pattern` against a string). -/
def startsWith : List Char → List Char → Bool
  | [], _ => true
  | _ :: _, [] => false
  | p :: ps, c :: cs => p = c && startsWith ps cs

/-- JS `String.prototype.replace` with a plain string pattern: replace the
first (leftmost) occurrence of `pat` by `rep`, leave everything else
unchanged; no occurrence means no change. -/
def replaceFirst (pat rep : List Char) : List Char → List Char
  | [] => if startsWith pat [] then rep else []
  | c :: rest =>
      if startsWith pat (c :: rest) then rep ++ (c :: rest).drop pat.length
      else c :: replaceFirst pat rep rest

/-- Data source configuration state (`DataSource` in `DataSource.ts`),
restricted to the fields the claims exercise. -/
structure DataSourceM where
  name : String
  urlTemplate : List Char
  minZoom : Int
  maxZoom : Int
  subdomains : List (List Char)
deriving DecidableEq, Repr

/-- `DataSource.selectSubdomain`: empty string without configured
sub-domains, else index `(x + y + z) % subdomains.length` (JS `%` is the
truncated remainder; a negative sum makes the JS read an undefined array
slot, which `replace` then stringifies). -/
def selectSubdomain (subs : List (List Char)) (k : TileKey) : List Char :=
  match subs with
  | [] => []
  | _ =>
      let i := (k.x + k.y + k.z).tmod (subs.length : Int)
      if 0 ≤ i then (subs.drop i.toNat).headD []
      else ['u', 'n', 'd', 'e', 'f', 'i', 'n', 'e', 'd']

/-- Decimal digits of an integer, as `Number.prototype.toString` yields
them. -/
def intChars (i : Int) : List Char := i.repr.toList

/-- `DataSource.replaceUrlPlaceholders`: chained single-occurrence
replacements of the x, y, z and s placeholders, in that order. -/
def replaceUrlPlaceholders (subs : List (List Char)) (template : List Char)
    (k : TileKey) : List Char :=
  let subdomain := selectSubdomain subs k
  replaceFirst ['\x7b', 's', '\x7d'] subdomain
    (replaceFirst ['\x7b', 'z', '\x7d'] (intChars k.z)
      (replaceFirst ['\x7b', 'y', '\x7d'] (intChars k.y)
        (replaceFirst ['\x7b', 'x', '\x7d'] (intChars k.x) template)))

/-- `XYZDataSource.getUrl`. -/
def XYZDataSource.getUrl (ds : DataSourceM) (k : TileKey) : List Char :=
  replaceUrlPlaceholders ds.subdomains ds.urlTemplate k

/-- Lookup of a registered data source by name
(`this._dataSources.get(...)`). -/
def lookupSource : List (String × DataSourceM) → String → Option DataSourceM
  | [], _ => none
  | e :: rest, k => if e.1 = k then some e.2 else lookupSource rest k

/-- Terminal failure of `TileLoader._executeLoadTask`. -/
inductive LoadError where
  | dataSourceNotFound (name : String)
  | network (e : RequestError)
deriving DecidableEq, Repr

/-- Pure fetch pipeline of one `_executeLoadTask` run: resolve the data
source (failing terminally when absent), drive the request through the
network manager's retry loop, and on success build the `Tile` from the
payload.  Second component: number of fetch attempts performed.  (The
`instanceof ArrayBuffer` check always passes here because the modelled
response data is an `ArrayBuffer`.) -/
def runLoadTask (sources : List (String × DataSourceM)) (tk : TileKey)
    (retries : Nat) (outcomes : Nat → Except AttemptError NetResponse)
    (extAborted : Nat → Bool) (now : Nat) : Except LoadError Tile × Nat :=
  match lookupSource sources tk.source with
  | none => (Except.error (LoadError.dataSourceNotFound tk.source), 0)
  | some _ =>
      match executeRequest outcomes extAborted retries with
      | (Except.ok resp, n) => (Except.ok (mkLoadedTile tk resp.data now), n)
      | (Except.error e, n) => (Except.error (LoadError.network e), n)

/-- Mutable state of `TileLoader` relevant to the claims, plus an
instrumentation counter `getCalls` recording how many
`networkManager.get` calls (underlying network fetch operations) have been
started. -/
structure LoaderState where
  cache : TileCache
  queue : LoadingQueue
  sources : List (String × DataSourceM)
  retryAttempts : Nat
  getCalls : Nat
deriving Repr

/-- `TileLoader` constructor state (with empty data-source registry). -/
def mkLoaderState (maxCacheSize maxMemory maxConcurrentLoads retryAttempts : Nat) :
    LoaderState :=
  { cache := mkTileCache maxCacheSize maxMemory
    queue := mkLoadingQueue maxConcurrentLoads
    sources := []
    retryAttempts := retryAttempts
    getCalls := 0 }

/-- `TileLoader.addDataSource`. -/
def LoaderState.addDataSource (s : LoaderState) (name : String) (ds : DataSourceM) :
    LoaderState :=
  { s with sources := (name, ds) :: s.sources }

/-- Synchronous part of one `loadTile` call: a cache hit resolves
immediately; a cache miss creates a fresh task whose `_executeLoadTask`
promise starts right away — when the data source resolves, it runs up to
the `await networkManager.get(...)`, starting a new network operation —
after which `loadTile` enqueues the task and drains the queue.  When the
data source is missing, `_executeLoadTask` throws synchronously and its
`finally` block removes the key from the queue before `loadTile` enqueues
the task. -/
def LoaderState.loadTileStart (s : LoaderState) (tk : TileKey) (prio : TaskPriority)
    (now : Nat) : LoaderState :=
  let key := tileKeyToString tk
  match s.cache.get key now with
  | (some _, cache2) => { s with cache := cache2 }
  | (none, cache2) =>
      let task : LoadingTask :=
        { tileKey := tk
          priority := prio
          retryCount := 0
          maxRetries := s.retryAttempts
          createdAt := now }
      match lookupSource s.sources tk.source with
      | some _ =>
          let s1 := { s with cache := cache2, getCalls := s.getCalls + 1 }
          let q1 := s1.queue.enqueue task
          { s1 with queue := processQueue q1 }
      | none =>
          let q0 := s.queue.remove key
          let q1 := q0.enqueue task
          { s with cache := cache2, queue := processQueue q1 }

/-- Resolution of an in-flight fetch for `tk`: `_executeLoadTask` builds
the tile, stores it in the cache, and its `finally` block removes the task
from the queue. -/
def LoaderState.completeFetch (s : LoaderState) (tk : TileKey) (data : ArrayBufferM)
    (now : Nat) : LoaderState :=
  let key := tileKeyToString tk
  { s with
      cache := s.cache.set key (mkLoadedTile tk data now)
      queue := s.queue.remove key }

/-- Terminal rejection of an in-flight fetch: only the `finally` block
runs. -/
def LoaderState.failFetch (s : LoaderState) (tk : TileKey) : LoaderState :=
  { s with queue := s.queue.remove (tileKeyToString tk) }

/-! Association-list and recency-list lemmas. -/

theorem lookupKey_eq_none {m : List (String × Tile)} {k : String} :
    lookupKey m k = none ↔ k ∉ m.map Prod.fst := by
  induction m with
  | nil => simp [lookupKey]
  | cons e rest ih =>
      by_cases h : e.1 = k
      · simp [lookupKey, h]
      · simp [lookupKey, h, ih, Ne.symm h]

theorem lookupKey_some_mem {m : List (String × Tile)} {k : String} {t : Tile}
    (h : lookupKey m k = some t) : k ∈ m.map Prod.fst := by
  by_contra hk
  rw [← lookupKey_eq_none] at hk
  simp [hk] at h

theorem lookupKey_mem_isSome {m : List (String × Tile)} {k : String}
    (h : k ∈ m.map Prod.fst) : ∃ t, lookupKey m k = some t := by
  cases he : lookupKey m k with
  | none => exact absurd h (lookupKey_eq_none.mp he)
  | some t => exact ⟨t, rfl⟩

theorem eraseKey_map_fst (m : List (String × Tile)) (k : String) :
    (eraseKey m k).map Prod.fst = (m.map Prod.fst).erase k := by
  induction m with
  | nil => simp [eraseKey]
  | cons e rest ih =>
      by_cases h : e.1 = k
      · simp [eraseKey, h, List.erase_cons_head]
      · simp [eraseKey, h, ih, List.erase_cons_tail, Ne.symm h]

theorem eraseKey_length {m : List (String × Tile)} {k : String} {t : Tile}
    (h : lookupKey m k = some t) : (eraseKey m k).length + 1 = m.length := by
  induction m with
  | nil => simp [lookupKey] at h
  | cons e rest ih =>
      by_cases he : e.1 = k
      · simp [eraseKey, he]
      · simp only [lookupKey, he, if_false] at h
        simp [eraseKey, he, ih h]

theorem sumSizes_cons (e : String × Tile) (m : List (String × Tile)) :
    sumSizes (e :: m) = (e.2.size : Int) + sumSizes m := by
  simp [sumSizes]

theorem sumSizes_eraseKey {m : List (String × Tile)} {k : String} {t : Tile}
    (h : lookupKey m k = some t) :
    sumSizes (eraseKey m k) + (t.size : Int) = sumSizes m := by
  induction m with
  | nil => simp [lookupKey] at h
  | cons e rest ih =>
      by_cases he : e.1 = k
      · simp only [lookupKey, he, if_true, Option.some.injEq] at h
        subst h
        simp [eraseKey, he, sumSizes_cons]
        ring
      · simp only [lookupKey, he, if_false] at h
        simp only [eraseKey, he, if_false, sumSizes_cons]
        rw [← ih h]
        ring

theorem replaceValue_map_fst (m : List (String × Tile)) (k : String) (t : Tile) :
    (replaceValue m k t).map Prod.fst = m.map Prod.fst := by
  induction m with
  | nil => simp [replaceValue]
  | cons e rest ih =>
      by_cases h : e.1 = k
      · simpa [replaceValue, h] using ih
      · simpa [replaceValue, h] using ih

theorem replaceValue_length (m : List (String × Tile)) (k : String) (t : Tile) :
    (replaceValue m k t).length = m.length := by
  simp [replaceValue]

theorem replaceValue_of_not_mem {m : List (String × Tile)} {k : String} (t : Tile)
    (h : k ∉ m.map Prod.fst) : replaceValue m k t = m := by
  induction m with
  | nil => simp [replaceValue]
  | cons e rest ih =>
      simp only [List.map_cons, List.mem_cons, not_or] at h
      have h1 : ¬ e.1 = k := fun he => h.1 he.symm
      show (if e.1 = k then (k, t) else e) :: replaceValue rest k t = e :: rest
      rw [if_neg h1, ih h.2]

theorem sumSizes_replaceValue {m : List (String × Tile)} {k : String} {old : Tile}
    (t : Tile) (hnd : (m.map Prod.fst).Nodup) (h : lookupKey m k = some old) :
    sumSizes (replaceValue m k t) = sumSizes m - (old.size : Int) + (t.size : Int) := by
  induction m with
  | nil => simp [lookupKey] at h
  | cons e rest ih =>
      simp only [List.map_cons, List.nodup_cons] at hnd
      by_cases he : e.1 = k
      · simp only [lookupKey, he, if_true, Option.some.injEq] at h
        subst h
        have hrest : k ∉ rest.map Prod.fst := he ▸ hnd.1
        have hr : replaceValue rest k t = rest := replaceValue_of_not_mem t hrest
        show sumSizes ((if e.1 = k then (k, t) else e) :: replaceValue rest k t) = _
        rw [if_pos he, sumSizes_cons, hr, sumSizes_cons]
        ring
      · simp only [lookupKey, he, if_false] at h
        have hr := ih hnd.2 h
        show sumSizes ((if e.1 = k then (k, t) else e) :: replaceValue rest k t) = _
        rw [if_neg he, sumSizes_cons, hr, sumSizes_cons]
        ring

theorem getLast?_eq_append {l : List String} {k : String}
    (h : l.getLast? = some k) : ∃ l2, l = l2 ++ [k] := by
  induction l with
  | nil => simp at h
  | cons a rest ih =>
      cases rest with
      | nil =>
          simp [List.getLast?] at h
          exact ⟨[], by simp [h]⟩
      | cons b rest2 =>
          rw [List.getLast?_cons_cons] at h
          obtain ⟨l2, hl2⟩ := ih h
          exact ⟨a :: l2, by simp [hl2]⟩

theorem dropLast_eq_erase {l : List String} {k : String} (hnd : l.Nodup)
    (h : l.getLast? = some k) : l.dropLast = l.erase k := by
  obtain ⟨l2, rfl⟩ := getLast?_eq_append h
  have hk : k ∉ l2 := by
    intro hmem
    exact (List.disjoint_of_nodup_append hnd) hmem (by simp)
  rw [List.dropLast_concat, List.erase_append_right _ hk]
  simp

/-! Well-formedness machinery for the cache. -/

theorem wf_mkTileCache (maxSize maxMemory : Nat) : (mkTileCache maxSize maxMemory).WF := by
  constructor <;> simp [mkTileCache, sumSizes]

theorem TileCache.WF.orderNodup {c : TileCache} (h : c.WF) : c.order.Nodup :=
  h.orderPerm.nodup_iff.mpr h.keysNodup

theorem TileCache.WF.orderLength {c : TileCache} (h : c.WF) :
    c.order.length = c.map.length := by
  simpa using h.orderPerm.length_eq

theorem TileCache.WF.map_eq_nil {c : TileCache} (h : c.WF) (hord : c.order = []) :
    c.map = [] := by
  have := h.orderPerm
  rw [hord] at this
  have : c.map.map Prod.fst = [] := (this.nil_eq).symm
  simpa using this

theorem evictLRU_eq_of_nil {c : TileCache} (hord : c.order = []) : c.evictLRU = c := by
  unfold TileCache.evictLRU
  rw [hord]
  rfl

theorem evictLRU_maxSize (c : TileCache) : c.evictLRU.maxSize = c.maxSize := by
  unfold TileCache.evictLRU
  cases hl : c.order.getLast? with
  | none => rfl
  | some key => cases hk : lookupKey c.map key <;> simp [hk]

theorem evictLRU_maxMemory (c : TileCache) : c.evictLRU.maxMemory = c.maxMemory := by
  unfold TileCache.evictLRU
  cases hl : c.order.getLast? with
  | none => rfl
  | some key => cases hk : lookupKey c.map key <;> simp [hk]

/-- On a consistent cache with at least one entry, `evictLRU` removes
exactly one entry, shortens the recency list by one, decrements the size
counter and increments `evictionCount`, preserving consistency. -/
theorem evictLRU_spec {c : TileCache} (h : c.WF) (hne : c.order ≠ []) :
    c.evictLRU.WF ∧
    c.evictLRU.map.length + 1 = c.map.length ∧
    c.evictLRU.order.length + 1 = c.order.length ∧
    c.evictLRU.currentSize + 1 = c.currentSize ∧
    c.evictLRU.evictionCount = c.evictionCount + 1 := by
  cases hl : c.order.getLast? with
  | none => exact absurd (List.getLast?_eq_none_iff.mp hl) hne
  | some key =>
      have hkey_mem_order : key ∈ c.order := by
        obtain ⟨l2, hl2⟩ := getLast?_eq_append hl
        simp [hl2]
      have hkey_mem : key ∈ c.map.map Prod.fst := h.orderPerm.mem_iff.mp hkey_mem_order
      obtain ⟨t, ht⟩ := lookupKey_mem_isSome hkey_mem
      have hev : c.evictLRU =
          { c with
              order := c.order.dropLast
              map := eraseKey c.map key
              currentSize := c.currentSize - 1
              currentMemory := c.currentMemory - (t.size : Int)
              evictionCount := c.evictionCount + 1 } := by
        unfold TileCache.evictLRU
        rw [hl]
        simp only [ht]
      have hlen := eraseKey_length ht
      have hdrop : c.order.dropLast = c.order.erase key :=
        dropLast_eq_erase h.orderNodup hl
      have hperm : (c.order.dropLast).Perm ((eraseKey c.map key).map Prod.fst) := by
        rw [hdrop, eraseKey_map_fst]
        exact h.orderPerm.erase key
      refine ⟨⟨?_, ?_, ?_, ?_⟩, ?_, ?_, ?_, ?_⟩
      · rw [hev]
        have := h.sizeOk
        simp only
        omega
      · rw [hev]
        have := h.memOk
        have hsum := sumSizes_eraseKey ht
        simp only
        omega
      · rw [hev]
        simp only [eraseKey_map_fst]
        exact h.keysNodup.erase key
      · rw [hev]
        exact hperm
      · rw [hev]
        simp only
        omega
      · rw [hev]
        simp only
        have : c.order.dropLast.length + 1 = c.order.length := by
          rw [hdrop]
          have h1 := List.length_erase_of_mem hkey_mem_order
          have h2 : 0 < c.order.length := List.length_pos.mpr hne
          omega
        exact this
      · rw [hev]
        simp only
        have := h.sizeOk
        omega
      · rw [hev]

theorem wf_evictLRU {c : TileCache} (h : c.WF) : c.evictLRU.WF := by
  by_cases hne : c.order = []
  · rw [evictLRU_eq_of_nil hne]; exact h
  · exact (evictLRU_spec h hne).1

/-- After the count loop, run with fuel at least the number of entries,
the count bound holds and consistency is preserved. -/
theorem evictCountLoop_spec :
    ∀ (n : Nat) (c : TileCache), c.WF → c.map.length ≤ n →
      (TileCache.evictCountLoop n c).WF ∧
      (TileCache.evictCountLoop n c).currentSize ≤
        ((TileCache.evictCountLoop n c).maxSize : Int) ∧
      (TileCache.evictCountLoop n c).maxSize = c.maxSize ∧
      (TileCache.evictCountLoop n c).maxMemory = c.maxMemory := by
  intro n
  induction n with
  | zero =>
      intro c h hfuel
      have hmap : c.map = [] := List.length_eq_zero.mp (Nat.le_zero.mp hfuel)
      have : c.currentSize = 0 := by rw [h.sizeOk, hmap]; rfl
      refine ⟨h, ?_, rfl, rfl⟩
      rw [show TileCache.evictCountLoop 0 c = c from rfl, this]
      exact Int.ofNat_nonneg c.maxSize
  | succ n ih =>
      intro c h hfuel
      by_cases hcond : (c.maxSize : Int) < c.currentSize
      · have hpos : 0 < c.currentSize := lt_of_le_of_lt (Int.ofNat_nonneg _) hcond
        have hmapne : c.map ≠ [] := by
          intro hmap
          rw [h.sizeOk, hmap] at hpos
          simp at hpos
        have hordne : c.order ≠ [] := fun hord => hmapne (h.map_eq_nil hord)
        obtain ⟨hwf2, hlen2, _, _, _⟩ := evictLRU_spec h hordne
        have hloop : TileCache.evictCountLoop (n + 1) c =
            TileCache.evictCountLoop n c.evictLRU := by
          rw [TileCache.evictCountLoop, if_pos hcond]
        have hfuel2 : c.evictLRU.map.length ≤ n := by omega
        obtain ⟨h1, h2, h3, h4⟩ := ih c.evictLRU hwf2 hfuel2
        rw [hloop]
        exact ⟨h1, h2, by rw [h3, evictLRU_maxSize], by rw [h4, evictLRU_maxMemory]⟩
      · have hloop : TileCache.evictCountLoop (n + 1) c = c := by
          rw [TileCache.evictCountLoop, if_neg hcond]
        rw [hloop]
        exact ⟨h, le_of_not_lt hcond, rfl, rfl⟩

/-- After the memory loop, both bounds hold. -/
theorem evictMemLoop_spec :
    ∀ (n : Nat) (c : TileCache), c.WF → c.map.length ≤ n →
      c.currentSize ≤ (c.maxSize : Int) →
      (TileCache.evictMemLoop n c).WF ∧
      (TileCache.evictMemLoop n c).currentSize ≤
        ((TileCache.evictMemLoop n c).maxSize : Int) ∧
      (TileCache.evictMemLoop n c).currentMemory ≤
        ((TileCache.evictMemLoop n c).maxMemory : Int) ∧
      (TileCache.evictMemLoop n c).maxSize = c.maxSize ∧
      (TileCache.evictMemLoop n c).maxMemory = c.maxMemory := by
  intro n
  induction n with
  | zero =>
      intro c h hfuel hsize
      have hmap : c.map = [] := List.length_eq_zero.mp (Nat.le_zero.mp hfuel)
      have hmem : c.currentMemory = 0 := by
        rw [h.memOk, hmap]; rfl
      refine ⟨h, hsize, ?_, rfl, rfl⟩
      rw [show TileCache.evictMemLoop 0 c = c from rfl, hmem]
      exact Int.ofNat_nonneg c.maxMemory
  | succ n ih =>
      intro c h hfuel hsize
      by_cases hcond : (c.maxMemory : Int) < c.currentMemory ∧ 0 < c.currentSize
      · obtain ⟨hmemc, hszc⟩ := hcond
        have hcond : (c.maxMemory : Int) < c.currentMemory ∧ 0 < c.currentSize :=
          ⟨hmemc, hszc⟩
        have hmapne : c.map ≠ [] := by
          intro hmap
          rw [h.sizeOk, hmap] at hszc
          simp at hszc
        have hordne : c.order ≠ [] := fun hord => hmapne (h.map_eq_nil hord)
        obtain ⟨hwf2, hlen2, _, hsz2, _⟩ := evictLRU_spec h hordne
        have hloop : TileCache.evictMemLoop (n + 1) c =
            TileCache.evictMemLoop n c.evictLRU := by
          rw [TileCache.evictMemLoop, if_pos hcond]
        have hfuel2 : c.evictLRU.map.length ≤ n := by omega
        have hsize2 : c.evictLRU.currentSize ≤ (c.evictLRU.maxSize : Int) := by
          rw [evictLRU_maxSize]; omega
        obtain ⟨h1, h2, h3, h4, h5⟩ := ih c.evictLRU hwf2 hfuel2 hsize2
        rw [hloop]
        exact ⟨h1, h2, h3, by rw [h4, evictLRU_maxSize], by rw [h5, evictLRU_maxMemory]⟩
      · have hloop : TileCache.evictMemLoop (n + 1) c = c := by
          rw [TileCache.evictMemLoop, if_neg hcond]
        rw [hloop]
        rcases not_and_or.mp hcond with hmem | hsz
        · exact ⟨h, hsize, le_of_not_lt hmem, rfl, rfl⟩
        · have hzero : c.currentSize = 0 := by
            have := h.sizeOk
            have := Int.ofNat_nonneg c.map.length
            omega
          have hmap : c.map = [] := by
            have := h.sizeOk
            rw [hzero] at this
            have : c.map.length = 0 := by omega
            exact List.length_eq_zero.mp this
          have hmem0 : c.currentMemory = 0 := by rw [h.memOk, hmap]; rfl
          refine ⟨h, hsize, ?_, rfl, rfl⟩
          rw [hmem0]
          exact Int.ofNat_nonneg c.maxMemory

/-- `evictIfNecessary` restores both bounds on any consistent cache. -/
theorem evictIfNecessary_spec {c : TileCache} (h : c.WF) :
    c.evictIfNecessary.WF ∧
    c.evictIfNecessary.currentSize ≤ (c.evictIfNecessary.maxSize : Int) ∧
    c.evictIfNecessary.currentMemory ≤ (c.evictIfNecessary.maxMemory : Int) ∧
    c.evictIfNecessary.maxSize = c.maxSize ∧
    c.evictIfNecessary.maxMemory = c.maxMemory := by
  have hfuel1 : c.map.length ≤ c.order.length := by rw [h.orderLength]
  obtain ⟨h1, h2, h3, h4⟩ := evictCountLoop_spec c.order.length c h hfuel1
  set c1 := TileCache.evictCountLoop c.order.length c with hc1
  have hfuel2 : c1.map.length ≤ c1.order.length := by rw [h1.orderLength]
  obtain ⟨g1, g2, g3, g4, g5⟩ := evictMemLoop_spec c1.order.length c1 h1 hfuel2 h2
  exact ⟨g1, g2, g3, g4.trans h3, g5.trans h4⟩

theorem setRaw_maxSize (c : TileCache) (k : String) (t : Tile) :
    (c.setRaw k t).maxSize = c.maxSize := by
  unfold TileCache.setRaw
  cases lookupKey c.map k <;> rfl

theorem setRaw_maxMemory (c : TileCache) (k : String) (t : Tile) :
    (c.setRaw k t).maxMemory = c.maxMemory := by
  unfold TileCache.setRaw
  cases lookupKey c.map k <;> rfl

theorem wf_setRaw {c : TileCache} (h : c.WF) (k : String) (t : Tile) :
    (c.setRaw k t).WF := by
  cases hk : lookupKey c.map k with
  | some old =>
      have hset : c.setRaw k t =
          { c with
              map := replaceValue c.map k t
              currentMemory := c.currentMemory - (old.size : Int) + (t.size : Int)
              order := moveToFirst k c.order } := by
        unfold TileCache.setRaw
        rw [hk]
      have hmemk : k ∈ c.map.map Prod.fst := lookupKey_some_mem hk
      have hmemo : k ∈ c.order := h.orderPerm.mem_iff.mpr hmemk
      constructor
      · rw [hset]
        simp only [replaceValue_length]
        exact h.sizeOk
      · rw [hset]
        simp only [sumSizes_replaceValue t h.keysNodup hk, h.memOk]
      · rw [hset]
        simp only [replaceValue_map_fst]
        exact h.keysNodup
      · rw [hset]
        simp only [replaceValue_map_fst, moveToFirst]
        exact (List.perm_cons_erase hmemo).symm.trans h.orderPerm
  | none =>
      have hset : c.setRaw k t =
          { c with
              map := (k, t) :: c.map
              order := k :: c.order
              currentSize := c.currentSize + 1
              currentMemory := c.currentMemory + (t.size : Int) } := by
        unfold TileCache.setRaw
        rw [hk]
      have hnk : k ∉ c.map.map Prod.fst := lookupKey_eq_none.mp hk
      constructor
      · rw [hset]
        simp only [List.length_cons, h.sizeOk]
        push_cast
        ring
      · rw [hset]
        simp only [sumSizes_cons, h.memOk]
        ring
      · rw [hset]
        simp only [List.map_cons]
        exact List.nodup_cons.mpr ⟨hnk, h.keysNodup⟩
      · rw [hset]
        simp only [List.map_cons]
        exact h.orderPerm.cons k

/-- `set` preserves consistency and leaves the cache within both bounds. -/
theorem set_spec {c : TileCache} (h : c.WF) (k : String) (t : Tile) :
    (c.set k t).WF ∧
    (c.set k t).currentSize ≤ ((c.set k t).maxSize : Int) ∧
    (c.set k t).currentMemory ≤ ((c.set k t).maxMemory : Int) ∧
    (c.set k t).maxSize = c.maxSize ∧
    (c.set k t).maxMemory = c.maxMemory := by
  obtain ⟨g1, g2, g3, g4, g5⟩ := evictIfNecessary_spec (wf_setRaw h k t)
  exact ⟨g1, g2, g3, g4.trans (setRaw_maxSize c k t), g5.trans (setRaw_maxMemory c k t)⟩

theorem wf_get {c : TileCache} (h : c.WF) (k : String) (now : Nat) :
    ((c.get k now).2).WF := by
  cases hk : lookupKey c.map k with
  | some t =>
      have hget : (c.get k now).2 =
          { c with
              map := replaceValue c.map k { t with lastAccessed := now }
              order := moveToFirst k c.order
              hitCount := c.hitCount + 1 } := by
        unfold TileCache.get
        rw [hk]
      have hmemk : k ∈ c.map.map Prod.fst := lookupKey_some_mem hk
      have hmemo : k ∈ c.order := h.orderPerm.mem_iff.mpr hmemk
      constructor
      · rw [hget]
        simp only [replaceValue_length]
        exact h.sizeOk
      · rw [hget]
        rw [sumSizes_replaceValue _ h.keysNodup hk]
        simp [h.memOk]
      · rw [hget]
        simp only [replaceValue_map_fst]
        exact h.keysNodup
      · rw [hget]
        simp only [replaceValue_map_fst, moveToFirst]
        exact (List.perm_cons_erase hmemo).symm.trans h.orderPerm
  | none =>
      have hget : (c.get k now).2 = { c with missCount := c.missCount + 1 } := by
        unfold TileCache.get
        rw [hk]
      rw [hget]
      exact ⟨h.sizeOk, h.memOk, h.keysNodup, h.orderPerm⟩

theorem wf_remove {c : TileCache} (h : c.WF) (k : String) : ((c.remove k).2).WF := by
  cases hk : lookupKey c.map k with
  | some t =>
      have hrem : (c.remove k).2 =
          { c with
              map := eraseKey c.map k
              order := c.order.erase k
              currentSize := c.currentSize - 1
              currentMemory := c.currentMemory - (t.size : Int) } := by
        unfold TileCache.remove
        rw [hk]
      constructor
      · rw [hrem]
        have h1 := eraseKey_length hk
        have h2 := h.sizeOk
        simp only
        omega
      · rw [hrem]
        have h1 := sumSizes_eraseKey hk
        have h2 := h.memOk
        simp only
        omega
      · rw [hrem]
        simp only [eraseKey_map_fst]
        exact h.keysNodup.erase k
      · rw [hrem]
        simp only [eraseKey_map_fst]
        exact h.orderPerm.erase k
  | none =>
      have hrem : (c.remove k).2 = c := by
        unfold TileCache.remove
        rw [hk]
      rw [hrem]
      exact h

theorem remove_evictionCount (c : TileCache) (k : String) :
    ((c.remove k).2).evictionCount = c.evictionCount := by
  unfold TileCache.remove
  cases lookupKey c.map k <;> rfl

theorem wf_clear {c : TileCache} (_ : c.WF) : c.clear.WF := by
  constructor <;> simp [TileCache.clear, sumSizes]

theorem wf_evictN {c : TileCache} (h : c.WF) (n : Nat) : (c.evictN n).WF := by
  induction n generalizing c with
  | zero => exact h
  | succ n ih =>
      show ((if c.evictLRU.currentSize = 0 then c.evictLRU
        else c.evictLRU.evictN n) : TileCache).WF
      split
      · exact wf_evictLRU h
      · exact ih (wf_evictLRU h)

theorem wf_foldRemove (ks : List String) :
    ∀ c : TileCache, c.WF → (ks.foldl (fun acc k => (acc.remove k).2) c).WF := by
  induction ks with
  | nil => exact fun c h => h
  | cons k rest ih => exact fun c h => ih ((c.remove k).2) (wf_remove h k)

theorem wf_evictByAge {c : TileCache} (h : c.WF) (now maxAge : Nat) :
    (c.evictByAge now maxAge).WF :=
  wf_foldRemove _ c h

/-! Eviction-count accounting. -/

theorem evictLRU_count_eq {c : TileCache} (h : c.WF) :
    c.evictLRU.evictionCount =
      c.evictionCount + (c.map.length - c.evictLRU.map.length) ∧
    c.evictLRU.map.length ≤ c.map.length := by
  by_cases hne : c.order = []
  · rw [evictLRU_eq_of_nil hne]
    omega
  · obtain ⟨_, hlen, _, _, hcnt⟩ := evictLRU_spec h hne
    omega

theorem evictN_count_eq {c : TileCache} (h : c.WF) (n : Nat) :
    (c.evictN n).evictionCount =
      c.evictionCount + (c.map.length - (c.evictN n).map.length) ∧
    (c.evictN n).map.length ≤ c.map.length := by
  induction n generalizing c with
  | zero =>
      have hstep : c.evictN 0 = c := rfl
      rw [hstep]
      omega
  | succ n ih =>
      obtain ⟨h1, h2⟩ := evictLRU_count_eq h
      have hstep : c.evictN (n + 1) =
          (if c.evictLRU.currentSize = 0 then c.evictLRU else c.evictLRU.evictN n) := rfl
      rw [hstep]
      split
      · omega
      · obtain ⟨g1, g2⟩ := ih (wf_evictLRU h)
        omega

theorem evictCountLoop_count_eq :
    ∀ (n : Nat) (c : TileCache), c.WF →
      (TileCache.evictCountLoop n c).evictionCount =
        c.evictionCount + (c.map.length - (TileCache.evictCountLoop n c).map.length) ∧
      (TileCache.evictCountLoop n c).map.length ≤ c.map.length := by
  intro n
  induction n with
  | zero => intro c _; simp [TileCache.evictCountLoop]
  | succ n ih =>
      intro c h
      have hstep : TileCache.evictCountLoop (n + 1) c =
          (if (c.maxSize : Int) < c.currentSize then
            TileCache.evictCountLoop n c.evictLRU else c) := rfl
      rw [hstep]
      split
      · obtain ⟨h1, h2⟩ := evictLRU_count_eq h
        obtain ⟨g1, g2⟩ := ih c.evictLRU (wf_evictLRU h)
        omega
      · omega

theorem evictMemLoop_count_eq :
    ∀ (n : Nat) (c : TileCache), c.WF →
      (TileCache.evictMemLoop n c).evictionCount =
        c.evictionCount + (c.map.length - (TileCache.evictMemLoop n c).map.length) ∧
      (TileCache.evictMemLoop n c).map.length ≤ c.map.length := by
  intro n
  induction n with
  | zero => intro c _; simp [TileCache.evictMemLoop]
  | succ n ih =>
      intro c h
      have hstep : TileCache.evictMemLoop (n + 1) c =
          (if (c.maxMemory : Int) < c.currentMemory ∧ 0 < c.currentSize then
            TileCache.evictMemLoop n c.evictLRU else c) := rfl
      rw [hstep]
      split
      · obtain ⟨h1, h2⟩ := evictLRU_count_eq h
        obtain ⟨g1, g2⟩ := ih c.evictLRU (wf_evictLRU h)
        omega
      · omega

theorem evictByAge_count_eq (c : TileCache) (now maxAge : Nat) :
    (c.evictByAge now maxAge).evictionCount = c.evictionCount := by
  unfold TileCache.evictByAge
  generalize (c.map.filter _).map Prod.fst = ks
  induction ks generalizing c with
  | nil => rfl
  | cons k rest ih =>
      show (rest.foldl (fun acc k => (acc.remove k).2) (c.remove k).2).evictionCount = _
      rw [ih ((c.remove k).2), remove_evictionCount]

/-! Loading-queue lemmas. -/

theorem taskKey_set_priority (t : LoadingTask) (p : TaskPriority) :
    taskKey { t with priority := p } = taskKey t := rfl

theorem priorityValue_le_three (p : TaskPriority) : priorityValue p ≤ 3 := by
  cases p <;> simp [priorityValue]

theorem findTask_eq_none {key : String} {l : List LoadingTask} :
    findTask key l = none ↔ key ∉ l.map taskKey := by
  induction l with
  | nil => simp [findTask]
  | cons t ts ih =>
      simp only [List.map_cons, List.mem_cons, not_or]
      by_cases h : taskKey t = key
      · rw [show findTask key (t :: ts) = some ([], t, ts) by
          simp [findTask, h]]
        simp [h]
      · rw [show findTask key (t :: ts) =
            (match findTask key ts with
              | none => none
              | some (pre, ex, post) => some (t :: pre, ex, post)) by
          simp [findTask, h]]
        cases hf : findTask key ts with
        | none =>
            have hmem := ih.mp hf
            have h2 : ¬key = taskKey t := fun he => h he.symm
            simp [hmem, h2]
        | some x =>
            obtain ⟨a, b, c⟩ := x
            have hmem : key ∈ ts.map taskKey := by
              by_contra hk
              exact Option.noConfusion ((ih.mpr hk).symm.trans hf)
            simp [hmem]

theorem findTask_some {key : String} {l pre post : List LoadingTask}
    {ex : LoadingTask} (h : findTask key l = some (pre, ex, post)) :
    l = pre ++ ex :: post ∧ taskKey ex = key ∧ key ∉ pre.map taskKey := by
  induction l generalizing pre with
  | nil => simp [findTask] at h
  | cons t ts ih =>
      by_cases ht : taskKey t = key
      · rw [show findTask key (t :: ts) = some ([], t, ts) by
          simp [findTask, ht]] at h
        simp only [Option.some.injEq, Prod.mk.injEq] at h
        obtain ⟨rfl, rfl, rfl⟩ := h
        exact ⟨rfl, ht, by simp⟩
      · rw [show findTask key (t :: ts) =
            (match findTask key ts with
              | none => none
              | some (pre, ex, post) => some (t :: pre, ex, post)) by
          simp [findTask, ht]] at h
        cases hf : findTask key ts with
        | none => rw [hf] at h; simp at h
        | some x =>
            obtain ⟨a, b, c⟩ := x
            rw [hf] at h
            simp only [Option.some.injEq, Prod.mk.injEq] at h
            obtain ⟨rfl, rfl, rfl⟩ := h
            obtain ⟨g1, g2, g3⟩ := ih hf
            refine ⟨by simp [g1], g2, ?_⟩
            simp only [List.map_cons, List.mem_cons, not_or]
            exact ⟨fun he => ht he.symm, g3⟩

theorem findTask_append {pre post : List LoadingTask} {ex : LoadingTask} {key : String}
    (hpre : key ∉ pre.map taskKey) (hex : taskKey ex = key) :
    findTask key (pre ++ ex :: post) = some (pre, ex, post) := by
  induction pre with
  | nil =>
      show (if taskKey ex = key then some ([], ex, post)
          else match findTask key post with
            | none => none
            | some (a, b, c) => some (ex :: a, b, c)) = some ([], ex, post)
      rw [if_pos hex]
  | cons t ts ih =>
      simp only [List.map_cons, List.mem_cons, not_or] at hpre
      have ht : ¬(taskKey t = key) := fun he => hpre.1 he.symm
      show (if taskKey t = key then some ([], t, ts ++ ex :: post)
          else match findTask key (ts ++ ex :: post) with
            | none => none
            | some (a, b, c) => some (t :: a, b, c)) = some (t :: ts, ex, post)
      rw [if_neg ht, ih hpre.2]

theorem insertByPriority_split (t : LoadingTask) (l : List LoadingTask) :
    ∃ l1 l2, insertByPriority t l = l1 ++ t :: l2 ∧ l = l1 ++ l2 := by
  induction l with
  | nil => exact ⟨[], [], rfl, rfl⟩
  | cons x xs ih =>
      by_cases h : priorityValue x.priority < priorityValue t.priority
      · exact ⟨[], x :: xs, by simp [insertByPriority, h], rfl⟩
      · obtain ⟨l1, l2, h1, h2⟩ := ih
        exact ⟨x :: l1, l2, by simp [insertByPriority, h, h1], by simp [h2]⟩

theorem insertByPriority_mem {x t : LoadingTask} {l : List LoadingTask}
    (h : x ∈ insertByPriority t l) : x = t ∨ x ∈ l := by
  obtain ⟨l1, l2, h1, h2⟩ := insertByPriority_split t l
  rw [h1] at h
  rw [h2]
  rcases List.mem_append.mp h with h | h
  · exact Or.inr (List.mem_append.mpr (Or.inl h))
  · rcases List.mem_cons.mp h with h | h
    · exact Or.inl h
    · exact Or.inr (List.mem_append.mpr (Or.inr h))

theorem insertByPriority_keys_perm (t : LoadingTask) (l : List LoadingTask) :
    ((insertByPriority t l).map taskKey).Perm (taskKey t :: l.map taskKey) := by
  obtain ⟨l1, l2, h1, h2⟩ := insertByPriority_split t l
  rw [h1, h2]
  simp only [List.map_append, List.map_cons]
  exact List.perm_middle

/-- Priority order between queued tasks (head first). -/
def prioGE (a b : LoadingTask) : Prop :=
  priorityValue b.priority ≤ priorityValue a.priority

theorem insertByPriority_sorted {l : List LoadingTask}
    (hs : l.Pairwise prioGE) (t : LoadingTask) :
    (insertByPriority t l).Pairwise prioGE := by
  induction l with
  | nil => simp [insertByPriority, List.pairwise_cons]
  | cons x xs ih =>
      obtain ⟨hx, hxs⟩ := List.pairwise_cons.mp hs
      by_cases h : priorityValue x.priority < priorityValue t.priority
      · rw [show insertByPriority t (x :: xs) = t :: x :: xs by
          simp [insertByPriority, h]]
        refine List.pairwise_cons.mpr ⟨?_, hs⟩
        intro b hb
        rcases List.mem_cons.mp hb with hb | hb
        · subst hb; exact le_of_lt h
        · exact le_trans (hx b hb) (le_of_lt h)
      · rw [show insertByPriority t (x :: xs) = x :: insertByPriority t xs by
          simp [insertByPriority, h]]
        refine List.pairwise_cons.mpr ⟨?_, ih hxs⟩
        intro b hb
        rcases insertByPriority_mem hb with hb | hb
        · subst hb; exact le_of_not_lt h
        · exact hx b hb

theorem priorityValue_inj {a b : TaskPriority}
    (h : priorityValue a = priorityValue b) : a = b := by
  cases a <;> cases b <;> simp_all [priorityValue]

theorem insertByPriority_filter {l : List LoadingTask} (hs : l.Pairwise prioGE)
    (t : LoadingTask) (p : TaskPriority) :
    (insertByPriority t l).filter (fun x => decide (x.priority = p)) =
      l.filter (fun x => decide (x.priority = p)) ++
        (if t.priority = p then [t] else []) := by
  induction l with
  | nil =>
      by_cases h : t.priority = p <;> simp [insertByPriority, List.filter_cons, h]
  | cons x xs ih =>
      obtain ⟨hx, hxs⟩ := List.pairwise_cons.mp hs
      by_cases h : priorityValue x.priority < priorityValue t.priority
      · rw [show insertByPriority t (x :: xs) = t :: x :: xs by
          simp [insertByPriority, h]]
        by_cases htp : t.priority = p
        · have hnil : (x :: xs).filter (fun y => decide (y.priority = p)) = [] := by
            rw [List.filter_eq_nil_iff]
            intro a ha
            simp only [decide_eq_true_eq]
            intro hap
            have hle : priorityValue a.priority ≤ priorityValue x.priority := by
              rcases List.mem_cons.mp ha with ha | ha
              · subst ha; exact le_refl _
              · exact hx a ha
            rw [hap, ← htp] at hle
            omega
          rw [List.filter_cons_of_pos (by simp [htp]), hnil, if_pos htp]
          rfl
        · rw [List.filter_cons_of_neg (by simp [htp]), if_neg htp, List.append_nil]
      · rw [show insertByPriority t (x :: xs) = x :: insertByPriority t xs by
          simp [insertByPriority, h]]
        by_cases hxp : x.priority = p
        · rw [List.filter_cons_of_pos (by simp [hxp]),
            List.filter_cons_of_pos (by simp [hxp]), ih hxs, List.cons_append]
        · rw [List.filter_cons_of_neg (by simp [hxp]),
            List.filter_cons_of_neg (by simp [hxp]), ih hxs]

theorem enqueue_not_mem {q : LoadingQueue} {t : LoadingTask}
    (h : taskKey t ∉ q.tasks.map taskKey) :
    q.enqueue t = { q with tasks := insertByPriority t q.tasks } := by
  unfold LoadingQueue.enqueue
  rw [findTask_eq_none.mpr h]

/-- Effect of a sequence of enqueues with fresh, pairwise-distinct keys on
a sorted queue: the task list stays priority-sorted, each priority class
keeps its arrival order, the key multiset grows accordingly, and the
active set and ceiling are untouched. -/
theorem enqueue_fold_spec (input : List LoadingTask) :
    ∀ q : LoadingQueue, q.tasks.Pairwise prioGE →
      (q.tasks.map taskKey ++ input.map taskKey).Nodup →
      ((input.foldl LoadingQueue.enqueue q).tasks.Pairwise prioGE) ∧
      (∀ p, (input.foldl LoadingQueue.enqueue q).tasks.filter
            (fun x => decide (x.priority = p)) =
          q.tasks.filter (fun x => decide (x.priority = p)) ++
            input.filter (fun x => decide (x.priority = p))) ∧
      ((input.foldl LoadingQueue.enqueue q).tasks.map taskKey).Perm
        (q.tasks.map taskKey ++ input.map taskKey) ∧
      (input.foldl LoadingQueue.enqueue q).active = q.active ∧
      (input.foldl LoadingQueue.enqueue q).maxConcurrent = q.maxConcurrent := by
  induction input with
  | nil => exact fun q hs _ => ⟨hs, fun p => by simp, by simp, rfl, rfl⟩
  | cons t rest ih =>
      intro q hs hnd
      have hnew : taskKey t ∉ q.tasks.map taskKey := by
        intro hmem
        exact (List.disjoint_of_nodup_append hnd) hmem (by simp)
      have henq := enqueue_not_mem hnew
      have hq1tasks : (q.enqueue t).tasks = insertByPriority t q.tasks := by rw [henq]
      have hq1active : (q.enqueue t).active = q.active := by rw [henq]
      have hq1max : (q.enqueue t).maxConcurrent = q.maxConcurrent := by rw [henq]
      have hs1 : (q.enqueue t).tasks.Pairwise prioGE := by
        rw [hq1tasks]; exact insertByPriority_sorted hs t
      have hkeysperm : ((q.enqueue t).tasks.map taskKey).Perm
          (taskKey t :: q.tasks.map taskKey) := by
        rw [hq1tasks]; exact insertByPriority_keys_perm t q.tasks
      have hnd1 : ((q.enqueue t).tasks.map taskKey ++ rest.map taskKey).Nodup := by
        have h0 : ((taskKey t :: q.tasks.map taskKey) ++ rest.map taskKey).Nodup := by
          rw [List.cons_append]
          exact (List.perm_middle.nodup_iff).mp (by simpa using hnd)
        exact ((hkeysperm.append_right (rest.map taskKey)).nodup_iff).mpr h0
      obtain ⟨g1, g2, g3, g4, g5⟩ := ih (q.enqueue t) hs1 hnd1
      have hfold : (t :: rest).foldl LoadingQueue.enqueue q =
          rest.foldl LoadingQueue.enqueue (q.enqueue t) := by
        simp [List.foldl_cons]
      refine ⟨hfold ▸ g1, ?_, ?_, by rw [hfold, g4, hq1active],
        by rw [hfold, g5, hq1max]⟩
      · intro p
        rw [hfold, g2 p, hq1tasks, insertByPriority_filter hs t p]
        by_cases htp : t.priority = p
        · simp [htp, List.filter_cons]
        · simp [htp, List.filter_cons]
      · rw [hfold]
        refine (g3.trans ?_)
        refine ((hkeysperm.append_right (rest.map taskKey)).trans ?_)
        rw [List.cons_append]
        simpa using List.perm_middle.symm

theorem dequeue_stuck {q : LoadingQueue}
    (h : q.tasks.length = 0 ∨ q.maxConcurrent ≤ q.active.length) :
    q.dequeue = (none, q) := by
  unfold LoadingQueue.dequeue
  rw [if_pos h]

theorem dequeue_pop {q : LoadingQueue} {t : LoadingTask} {rest : List LoadingTask}
    (htasks : q.tasks = t :: rest) (hlt : q.active.length < q.maxConcurrent) :
    q.dequeue =
      (some t, { q with tasks := rest, active := setAdd (taskKey t) q.active }) := by
  unfold LoadingQueue.dequeue
  rw [htasks]
  rw [if_neg (by simp [Nat.not_le.mpr hlt])]

/-- Repeated dequeues starting from a queue whose pending keys are fresh
and duplicate-free pop the task list in order, front first, up to the
remaining concurrency budget. -/
theorem drain_spec :
    ∀ (n : Nat) (q : LoadingQueue),
      (∀ t ∈ q.tasks, taskKey t ∉ q.active) →
      (q.tasks.map taskKey).Nodup →
      LoadingQueue.drain n q =
        q.tasks.take (min n (q.maxConcurrent - q.active.length)) := by
  intro n
  induction n with
  | zero => intro q _ _; simp [LoadingQueue.drain]
  | succ n ih =>
      intro q hdisj hnd
      by_cases hc : q.tasks.length = 0 ∨ q.maxConcurrent ≤ q.active.length
      · have hstep : LoadingQueue.drain (n + 1) q = [] := by
          show (match q.dequeue with
            | (none, _) => []
            | (some t, q2) => t :: LoadingQueue.drain n q2) = []
          rw [dequeue_stuck hc]
        rw [hstep]
        rcases hc with hc | hc
        · rw [List.length_eq_zero.mp hc]
          simp
        · rw [Nat.sub_eq_zero_of_le hc]
          simp
      · push_neg at hc
        obtain ⟨hlen, hlt⟩ := hc
        cases htasks : q.tasks with
        | nil => rw [htasks] at hlen; simp at hlen
        | cons t rest =>
            have hkey : taskKey t ∉ q.active := hdisj t (by rw [htasks]; simp)
            have hset : setAdd (taskKey t) q.active = taskKey t :: q.active := by
              simp [setAdd, hkey]
            have hstep : LoadingQueue.drain (n + 1) q =
                t :: LoadingQueue.drain n
                  { q with tasks := rest, active := setAdd (taskKey t) q.active } := by
              show (match q.dequeue with
                | (none, _) => []
                | (some t, q2) => t :: LoadingQueue.drain n q2) = _
              rw [dequeue_pop htasks hlt]
            have hnd2 : (rest.map taskKey).Nodup := by
              rw [htasks] at hnd
              exact (List.nodup_cons.mp hnd).2
            have hkeyt : taskKey t ∉ rest.map taskKey := by
              rw [htasks] at hnd
              exact (List.nodup_cons.mp hnd).1
            have hdisj2 : ∀ x ∈ rest, taskKey x ∉ setAdd (taskKey t) q.active := by
              intro x hx
              rw [hset]
              simp only [List.mem_cons, not_or]
              constructor
              · intro he
                exact hkeyt (he ▸ List.mem_map_of_mem taskKey hx)
              · exact hdisj x (by rw [htasks]; simp [hx])
            rw [hstep, ih _ hdisj2 hnd2]
            show t :: List.take
                (min n (q.maxConcurrent - (setAdd (taskKey t) q.active).length)) rest =
              List.take (min (n + 1) (q.maxConcurrent - q.active.length)) (t :: rest)
            rw [hset]
            have harith : min (n + 1) (q.maxConcurrent - q.active.length) =
                min n (q.maxConcurrent - (taskKey t :: q.active).length) + 1 := by
              simp only [List.length_cons]
              omega
            rw [harith]
            rfl

theorem remove_tasks (q : LoadingQueue) (k : String) :
    (q.remove k).tasks =
      (match findTask k q.tasks with
        | some (pre, _, post) => pre ++ post
        | none => q.tasks) := rfl

/-- Every queue operation keeps the pending task list free of duplicate
keys. -/
theorem applyOp_keys_nodup {q : LoadingQueue} (h : (q.tasks.map taskKey).Nodup)
    (op : QueueOp) : (((q.applyOp op).tasks).map taskKey).Nodup := by
  cases op with
  | enqueue t =>
      show ((q.enqueue t).tasks.map taskKey).Nodup
      cases hf : findTask (taskKey t) q.tasks with
      | none =>
          rw [enqueue_not_mem (findTask_eq_none.mp hf)]
          exact ((insertByPriority_keys_perm t q.tasks).nodup_iff).mpr
            (List.nodup_cons.mpr ⟨findTask_eq_none.mp hf, h⟩)
      | some x =>
          obtain ⟨pre, ex, post⟩ := x
          obtain ⟨hsplit, hexkey, hprekeys⟩ := findTask_some hf
          have henq : q.enqueue t =
              (if t.priority = TaskPriority.HIGH ∧ ex.priority ≠ TaskPriority.HIGH
                then { q with tasks :=
                  (insertByPriority { ex with priority := TaskPriority.HIGH }
                    (pre ++ post)) }
                else q) := by
            unfold LoadingQueue.enqueue
            rw [hf]
          rw [henq]
          have h2 : ((pre ++ ex :: post).map taskKey).Nodup := hsplit ▸ h
          rw [List.map_append, List.map_cons] at h2
          have h3 := (List.perm_middle.nodup_iff).mp h2
          split
          · refine ((insertByPriority_keys_perm _ _).nodup_iff).mpr ?_
            rw [taskKey_set_priority]
            simpa [List.map_append] using h3
          · exact h
  | dequeue =>
      show (((q.dequeue).2).tasks.map taskKey).Nodup
      by_cases hc : q.tasks.length = 0 ∨ q.maxConcurrent ≤ q.active.length
      · rw [dequeue_stuck hc]; exact h
      · push_neg at hc
        cases htasks : q.tasks with
        | nil => rw [htasks] at hc; simp at hc
        | cons t rest =>
            rw [dequeue_pop htasks hc.2]
            have h2 := htasks ▸ h
            simp only [List.map_cons, List.nodup_cons] at h2
            exact h2.2
  | remove k =>
      show ((q.remove k).tasks.map taskKey).Nodup
      rw [remove_tasks]
      cases hf : findTask k q.tasks with
      | none => exact h
      | some x =>
          obtain ⟨pre, ex, post⟩ := x
          obtain ⟨hsplit, _, _⟩ := findTask_some hf
          have h2 : ((pre ++ ex :: post).map taskKey).Nodup := hsplit ▸ h
          rw [List.map_append, List.map_cons] at h2
          have h3 := (List.perm_middle.nodup_iff).mp h2
          rw [List.map_append]
          exact (List.nodup_cons.mp h3).2
  | clear =>
      show (([] : List LoadingTask).map taskKey).Nodup
      simp

theorem foldOps_keys_nodup (ops : List QueueOp) :
    ∀ q : LoadingQueue, (q.tasks.map taskKey).Nodup →
      (((ops.foldl LoadingQueue.applyOp q).tasks).map taskKey).Nodup := by
  induction ops with
  | nil => exact fun q h => h
  | cons op rest ih =>
      exact fun q h => ih (q.applyOp op) (applyOp_keys_nodup h op)

/-! Network retry-loop lemmas. -/

theorem executeRequestGo_allFail (outcomes : Nat → Except AttemptError NetResponse)
    (extAborted : Nat → Bool) (retries : Nat) (errs : Nat → AttemptError)
    (hfail : ∀ a, outcomes a = Except.error (errs a))
    (hnoab : ∀ a, extAborted a = false) :
    ∀ (fuel attempt : Nat), 1 ≤ fuel → attempt + fuel = retries + 1 →
      executeRequestGo outcomes extAborted retries fuel attempt =
        (Except.error (classifyError (errs retries) false), retries + 1) := by
  intro fuel
  induction fuel with
  | zero => intro attempt h1 _; omega
  | succ f ih =>
      intro attempt _ hsum
      by_cases hatt : attempt = retries
      · subst hatt
        simp [executeRequestGo, hfail, hnoab]
      · have h1f : 1 ≤ f := by omega
        have hsum2 : attempt + 1 + f = retries + 1 := by omega
        have hstep : executeRequestGo outcomes extAborted retries (f + 1) attempt =
            executeRequestGo outcomes extAborted retries f (attempt + 1) := by
          simp only [executeRequestGo, hfail, hnoab]
          rw [if_neg (by simp [hatt])]
        rw [hstep]
        exact ih (attempt + 1) h1f hsum2

/-- With a registered data source and a transport failing on every
attempt (and no external abort), one load-task run performs exactly
`retries + 1` fetch attempts and rejects with the classification of the
last attempt's error. -/
theorem runLoadTask_allFail (sources : List (String × DataSourceM)) (tk : TileKey)
    (retries : Nat) (outcomes : Nat → Except AttemptError NetResponse)
    (errs : Nat → AttemptError) (extAborted : Nat → Bool) (now : Nat)
    (hsrc : (lookupSource sources tk.source).isSome = true)
    (hfail : ∀ a, outcomes a = Except.error (errs a))
    (hnoab : ∀ a, extAborted a = false) :
    runLoadTask sources tk retries outcomes extAborted now =
      (Except.error (LoadError.network (classifyError (errs retries) false)),
        retries + 1) := by
  obtain ⟨ds, hds⟩ := Option.isSome_iff_exists.mp hsrc
  unfold runLoadTask
  rw [hds]
  unfold executeRequest
  rw [executeRequestGo_allFail outcomes extAborted retries errs hfail hnoab
    (retries + 1) 0 (by omega) (by omega)]

/-! String-replacement lemmas. -/

theorem startsWith_append_self (pat rest : List Char) :
    startsWith pat (pat ++ rest) = true := by
  induction pat with
  | nil => rfl
  | cons p ps ih => simp [startsWith, ih]

theorem replaceFirst_at_first (pat rep v : List Char) (hne : pat ≠ []) :
    ∀ u : List Char,
      (∀ i, i < u.length → startsWith pat ((u ++ (pat ++ v)).drop i) = false) →
      replaceFirst pat rep (u ++ (pat ++ v)) = u ++ (rep ++ v) := by
  intro u
  induction u with
  | nil =>
      intro _
      cases pat with
      | nil => exact absurd rfl hne
      | cons p ps =>
          show (if startsWith (p :: ps) (p :: (ps ++ v)) then
              rep ++ (p :: (ps ++ v)).drop (p :: ps).length
            else p :: replaceFirst (p :: ps) rep (ps ++ v)) = rep ++ v
          rw [if_pos (show startsWith (p :: ps) (p :: (ps ++ v)) = true from
            startsWith_append_self (p :: ps) v)]
          have hdrop : (p :: (ps ++ v)).drop (p :: ps).length = v := by
            show (ps ++ v).drop ps.length = v
            exact List.drop_left ps v
          rw [hdrop]
  | cons c u' ih =>
      intro hfirst
      have h0 : startsWith pat (c :: (u' ++ (pat ++ v))) = false := by
        have := hfirst 0 (by simp)
        simpa using this
      show (if startsWith pat (c :: (u' ++ (pat ++ v))) then
          rep ++ (c :: (u' ++ (pat ++ v))).drop pat.length
        else c :: replaceFirst pat rep (u' ++ (pat ++ v))) = c :: (u' ++ (rep ++ v))
      rw [if_neg (by simp [h0])]
      have hrest : ∀ i, i < u'.length →
          startsWith pat ((u' ++ (pat ++ v)).drop i) = false := by
        intro i hi
        have := hfirst (i + 1) (by simpa using Nat.succ_lt_succ hi)
        simpa using this
      rw [ih hrest]

/-! Loader lemmas. -/

theorem cacheGet_none {c : TileCache} {k : String} (h : lookupKey c.map k = none)
    (now : Nat) : c.get k now = (none, { c with missCount := c.missCount + 1 }) := by
  unfold TileCache.get
  rw [h]

/-- Every cache-missed `loadTile` call whose data source resolves starts
exactly one new underlying network operation, regardless of any pending or
active task for the same key. -/
theorem loadTileStart_getCalls {s : LoaderState} {tk : TileKey}
    (prio : TaskPriority) (now : Nat)
    (hmiss : lookupKey s.cache.map (tileKeyToString tk) = none)
    (hsrc : (lookupSource s.sources tk.source).isSome = true) :
    (s.loadTileStart tk prio now).getCalls = s.getCalls + 1 := by
  obtain ⟨ds, hds⟩ := Option.isSome_iff_exists.mp hsrc
  simp only [LoaderState.loadTileStart]
  rw [cacheGet_none hmiss now, hds]

/-- Folding a sequence of `set` calls keeps the cache consistent and
inside both bounds. -/
theorem setFold_spec (ops : List (String × Tile)) :
    ∀ c : TileCache, c.WF →
      c.currentSize ≤ (c.maxSize : Int) → c.currentMemory ≤ (c.maxMemory : Int) →
      (ops.foldl (fun c p => c.set p.1 p.2) c).WF ∧
      (ops.foldl (fun c p => c.set p.1 p.2) c).currentSize ≤
        (((ops.foldl (fun c p => c.set p.1 p.2) c).maxSize : Int)) ∧
      (ops.foldl (fun c p => c.set p.1 p.2) c).currentMemory ≤
        (((ops.foldl (fun c p => c.set p.1 p.2) c).maxMemory : Int)) ∧
      (ops.foldl (fun c p => c.set p.1 p.2) c).maxSize = c.maxSize ∧
      (ops.foldl (fun c p => c.set p.1 p.2) c).maxMemory = c.maxMemory := by
  induction ops with
  | nil => exact fun c h h1 h2 => ⟨h, h1, h2, rfl, rfl⟩
  | cons e rest ih =>
      intro c h h1 h2
      obtain ⟨g1, g2, g3, g4, g5⟩ := set_spec h e.1 e.2
      obtain ⟨f1, f2, f3, f4, f5⟩ := ih (c.set e.1 e.2) g1 g2 g3
      have hfold : (e :: rest).foldl (fun c p => c.set p.1 p.2) c =
          rest.foldl (fun c p => c.set p.1 p.2) (c.set e.1 e.2) := by
        simp [List.foldl_cons]
      rw [hfold]
      exact ⟨f1, f2, f3, f4.trans g4, f5.trans g5⟩

theorem evictIfNecessary_count_eq {c : TileCache} (h : c.WF) :
    c.evictIfNecessary.evictionCount =
      c.evictionCount + (c.map.length - c.evictIfNecessary.map.length) ∧
    c.evictIfNecessary.map.length ≤ c.map.length := by
  have hfuel1 : c.map.length ≤ c.order.length := by rw [h.orderLength]
  obtain ⟨a1, a2⟩ := evictCountLoop_count_eq c.order.length c h
  have hwf1 : (TileCache.evictCountLoop c.order.length c).WF :=
    (evictCountLoop_spec c.order.length c h hfuel1).1
  obtain ⟨b1, b2⟩ := evictMemLoop_count_eq
    (TileCache.evictCountLoop c.order.length c).order.length
    (TileCache.evictCountLoop c.order.length c) hwf1
  have hunfold : c.evictIfNecessary =
      TileCache.evictMemLoop (TileCache.evictCountLoop c.order.length c).order.length
        (TileCache.evictCountLoop c.order.length c) := rfl
  rw [hunfold]
  omega

theorem task_update_self (t : LoadingTask) :
    ({ t with priority := t.priority } : LoadingTask) = t := rfl

/-! Concrete scenario data used by the closed claim instances. -/

/-- A tile key with the given column, registered source name `s`. -/
def sampleKey (x : Int) : TileKey :=
  { x := x, y := 0, z := 0, source := "s", layer := "base" }

/-- A loaded tile with a payload of `sz` bytes, fetched at time `now`. -/
def sampleTile (sz now : Nat) : Tile :=
  mkLoadedTile (sampleKey 0) { bytes := List.replicate sz 0 } now

/-- A registered data source named `s`. -/
def sampleSource : DataSourceM :=
  { name := "s", urlTemplate := [], minZoom := 0, maxZoom := 19, subdomains := [] }

/-- Loader with data source `s` registered and nothing cached. -/
def c1Loader0 : LoaderState :=
  (mkLoaderState 1000 1000000 6 3).addDataSource "s" sampleSource

/-- Two `loadTile` calls for the same uncached key, neither completed. -/
def c1Loader2 : LoaderState :=
  (c1Loader0.loadTileStart (sampleKey 0) TaskPriority.NORMAL 1).loadTileStart
    (sampleKey 0) TaskPriority.NORMAL 2

/-- Loader with concurrency ceiling 1: `loadTile k1`, `loadTile k2`, then
`loadTile k1` again while `k1` is still active. -/
def c3Loader : LoaderState :=
  (((mkLoaderState 1000 1000000 1 3).addDataSource "s" sampleSource).loadTileStart
      (sampleKey 1) TaskPriority.NORMAL 1
    |>.loadTileStart (sampleKey 2) TaskPriority.NORMAL 2)
    |>.loadTileStart (sampleKey 1) TaskPriority.NORMAL 3

/-- Cache with one entry whose `lastAccessed` is 0. -/
def c4Before : TileCache := (mkTileCache 10 1000).set "A" (sampleTile 5 0)

/-- The same cache after an age-based eviction pass at time 100 with
`maxAge = 10`. -/
def c4After : TileCache := c4Before.evictByAge 100 10

/-- LRU scenario 1: capacity 2; set A, set B, get A, set C. -/
def c5Scenario1 : TileCache :=
  ((((mkTileCache 2 268435456).set "A" (sampleTile 1 1)).set "B"
      (sampleTile 1 2)).get "A" 3).2.set "C" (sampleTile 1 4)

/-- LRU scenario 2: capacity 3, byte budget 100, tiles of 10 bytes;
set k1, k2, k3, get k1, set k4. -/
def c5Scenario2 : TileCache :=
  (((((mkTileCache 3 100).set "k1" (sampleTile 10 1)).set "k2"
      (sampleTile 10 2)).set "k3" (sampleTile 10 3)).get "k1" 4).2.set "k4"
    (sampleTile 10 5)

/-- A transport that rejects every attempt with a transport error. -/
def alwaysFailOutcomes : Nat → Except AttemptError NetResponse :=
  fun _ => Except.error AttemptError.networkError

/-- Queue holding exactly one LOW task for `sampleKey 0`. -/
def c7QueueLow : LoadingQueue :=
  (mkLoadingQueue 6).enqueue
    { tileKey := sampleKey 0, priority := TaskPriority.LOW, retryCount := 0,
      maxRetries := 3, createdAt := 0 }

/-- Five tasks with distinct keys and mixed priorities, in arrival order. -/
def c8Input : List LoadingTask :=
  [{ tileKey := sampleKey 1, priority := TaskPriority.LOW, retryCount := 0,
      maxRetries := 3, createdAt := 0 },
    { tileKey := sampleKey 2, priority := TaskPriority.HIGH, retryCount := 0,
      maxRetries := 3, createdAt := 1 },
    { tileKey := sampleKey 3, priority := TaskPriority.NORMAL, retryCount := 0,
      maxRetries := 3, createdAt := 2 },
    { tileKey := sampleKey 4, priority := TaskPriority.HIGH, retryCount := 0,
      maxRetries := 3, createdAt := 3 },
    { tileKey := sampleKey 5, priority := TaskPriority.LOW, retryCount := 0,
      maxRetries := 3, createdAt := 4 }]

/-- URL template with every placeholder occurring twice. -/
def c10Template : List Char :=
  "/t/\x7bx\x7d/\x7by\x7d/\x7bz\x7d/\x7bx\x7d/\x7by\x7d/\x7bz\x7d/\x7bs\x7d".toList

/-- XYZ source built over the duplicate-placeholder template. -/
def c10Source : DataSourceM :=
  { name := "dup", urlTemplate := c10Template, minZoom := 0, maxZoom := 19,
    subdomains := [] }

/-- The single LOW task held by `c7QueueLow`. -/
def c7LowTask : LoadingTask :=
  { tileKey := sampleKey 0, priority := TaskPriority.LOW, retryCount := 0,
    maxRetries := 3, createdAt := 0 }

/-- A HIGH request for the same key as `c7LowTask`. -/
def c7HighTask : LoadingTask :=
  { tileKey := sampleKey 0, priority := TaskPriority.HIGH, retryCount := 0,
    maxRetries := 3, createdAt := 1 }

/-! Claim theorems. -/

/-- C1 (counterexample): two concurrent `loadTile` calls for the same
uncached key, issued before either completes, start two underlying network
operations, not one — each call's `_executeLoadTask` promise performs its
own `networkManager.get`; the queue-level dedup never prevents the second
fetch. -/
theorem c1_counterexample :
    lookupKey c1Loader0.cache.map (tileKeyToString (sampleKey 0)) = none ∧
    c1Loader2.getCalls = 2 := by decide

/-- C1 (amended): every `loadTile` call that misses the cache and resolves
its data source starts exactly one new underlying network fetch of its
own, so N concurrent calls for the same uncached key cause N fetches (one
per call), each promise settling from its own request; only the pending
queue collapses duplicate keys. -/
theorem c1_each_miss_starts_own_fetch (s : LoaderState) (tk : TileKey)
    (prio : TaskPriority) (now : Nat)
    (hmiss : lookupKey s.cache.map (tileKeyToString tk) = none)
    (hsrc : (lookupSource s.sources tk.source).isSome = true) :
    (s.loadTileStart tk prio now).getCalls = s.getCalls + 1 :=
  loadTileStart_getCalls prio now hmiss hsrc

/-- Witness for C1 (amended) at a concrete loader state. -/
theorem c1_each_miss_starts_own_fetch_witness :
    (c1Loader0.loadTileStart (sampleKey 0) TaskPriority.NORMAL 1).getCalls =
      c1Loader0.getCalls + 1 :=
  c1_each_miss_starts_own_fetch c1Loader0 (sampleKey 0) TaskPriority.NORMAL 1
    (by decide) (by decide)

/-- C2: for every cache built with bounds `maxSize` and `maxMemory` and
every sequence of `set` calls, the cache afterwards satisfies
`currentSize ≤ maxSize` and `currentMemory ≤ maxMemory` (the sequence is
arbitrary, so this covers the state after each individual `set`). -/
theorem c2_cache_bounds_invariant (maxSize maxMemory : Nat)
    (ops : List (String × Tile)) :
    (ops.foldl (fun c p => c.set p.1 p.2) (mkTileCache maxSize maxMemory)).currentSize
        ≤ (maxSize : Int) ∧
    (ops.foldl (fun c p => c.set p.1 p.2) (mkTileCache maxSize maxMemory)).currentMemory
        ≤ (maxMemory : Int) := by
  obtain ⟨_, h2, h3, h4, h5⟩ := setFold_spec ops (mkTileCache maxSize maxMemory)
    (wf_mkTileCache maxSize maxMemory) (by simp [mkTileCache]) (by simp [mkTileCache])
  have h4m : (ops.foldl (fun c p => c.set p.1 p.2)
      (mkTileCache maxSize maxMemory)).maxSize = maxSize := h4
  have h5m : (ops.foldl (fun c p => c.set p.1 p.2)
      (mkTileCache maxSize maxMemory)).maxMemory = maxMemory := h5
  rw [h4m] at h2
  rw [h5m] at h3
  exact ⟨h2, h3⟩

/-- C3 (counterexample): with concurrency ceiling 1, requesting k1, then
k2, then k1 again (while k1's fetch is still active and the ceiling blocks
dequeues) leaves both a pending queue task for k1 and k1 in the active
set — two tasks for one key across the two structures. -/
theorem c3_counterexample :
    ((c3Loader.queue.tasks.filter
        (fun t => decide (taskKey t = tileKeyToString (sampleKey 1)))).length = 1) ∧
    tileKeyToString (sampleKey 1) ∈ c3Loader.queue.active := by decide

/-- C3 (amended): the at-most-one-task-per-key invariant holds within the
pending queue alone: any sequence of queue operations starting from the
empty queue leaves the pending task list free of duplicate keys (the
active set may simultaneously hold a key that also has a fresh pending
task). -/
theorem c3_pending_queue_key_unique (ops : List QueueOp) (n : Nat) :
    (((ops.foldl LoadingQueue.applyOp (mkLoadingQueue n)).tasks).map taskKey).Nodup :=
  foldOps_keys_nodup ops (mkLoadingQueue n) (by simp [mkLoadingQueue])

/-- C4 (counterexample): `evictByAge` evicts one entry (the cache drops
from one entry to none) yet `evictionCount` stays 0, because it removes
entries through `remove`, which never touches the counter. -/
theorem c4_counterexample :
    c4Before.map.length = 1 ∧ c4After.map.length = 0 ∧
    c4After.evictionCount = 0 ∧ c4Before.evictionCount = 0 := by decide

/-- C4 (amended): `evictionCount` increases by exactly one per entry
evicted through the LRU path (`evictLRU`, bound enforcement in
`evictIfNecessary`, and the `evictPercentage` loop), but entries evicted
by `evictByAge` do not increment it at all. -/
theorem c4_eviction_count_amended (c : TileCache) (h : c.WF) (now maxAge n : Nat) :
    c.evictLRU.evictionCount =
      c.evictionCount + (c.map.length - c.evictLRU.map.length) ∧
    c.evictIfNecessary.evictionCount =
      c.evictionCount + (c.map.length - c.evictIfNecessary.map.length) ∧
    (c.evictN n).evictionCount =
      c.evictionCount + (c.map.length - (c.evictN n).map.length) ∧
    (c.evictByAge now maxAge).evictionCount = c.evictionCount :=
  ⟨(evictLRU_count_eq h).1, (evictIfNecessary_count_eq h).1,
    (evictN_count_eq h n).1, evictByAge_count_eq c now maxAge⟩

/-- Witness for C4 (amended) at a concrete one-entry cache. -/
theorem c4_eviction_count_amended_witness :
    c4Before.evictLRU.evictionCount =
      c4Before.evictionCount + (c4Before.map.length - c4Before.evictLRU.map.length) ∧
    c4Before.evictIfNecessary.evictionCount =
      c4Before.evictionCount +
        (c4Before.map.length - c4Before.evictIfNecessary.map.length) ∧
    (c4Before.evictN 1).evictionCount =
      c4Before.evictionCount + (c4Before.map.length - (c4Before.evictN 1).map.length) ∧
    (c4Before.evictByAge 100 10).evictionCount = c4Before.evictionCount :=
  c4_eviction_count_amended c4Before
    ((set_spec (wf_mkTileCache 10 1000) "A" (sampleTile 5 0)).1) 100 10 1

/-- C5: `get` refreshes recency, so LRU eviction spares re-read entries:
with capacity 2, after set A, set B, get A, set C the cache keeps A and C
and evicts B; with capacity 3 and 10-byte tiles under a 100-byte budget,
after set k1..k3, get k1, set k4 the cache holds exactly k1, k3, k4 (k2
evicted). -/
theorem c5_lru_recency_scenarios :
    ((lookupKey c5Scenario1.map "A").isSome = true ∧
      (lookupKey c5Scenario1.map "C").isSome = true ∧
      lookupKey c5Scenario1.map "B" = none ∧ c5Scenario1.currentSize = 2) ∧
    (c5Scenario2.map.map Prod.fst = ["k4", "k3", "k1"] ∧
      lookupKey c5Scenario2.map "k2" = none ∧ c5Scenario2.currentSize = 3) := by
  decide

/-- C6: with a registered data source and a transport failing on every
attempt (no external abort), a load-task run performs exactly
`maxRetries + 1` fetch attempts and rejects carrying the classification of
the last attempt's error; `maxRetries = 2` gives exactly 3 attempts. -/
theorem c6_retry_ceiling (sources : List (String × DataSourceM)) (tk : TileKey)
    (retries : Nat) (outcomes : Nat → Except AttemptError NetResponse)
    (errs : Nat → AttemptError) (extAborted : Nat → Bool) (now : Nat)
    (hsrc : (lookupSource sources tk.source).isSome = true)
    (hfail : ∀ a, outcomes a = Except.error (errs a))
    (hnoab : ∀ a, extAborted a = false) :
    runLoadTask sources tk retries outcomes extAborted now =
      (Except.error (LoadError.network (classifyError (errs retries) false)),
        retries + 1) :=
  runLoadTask_allFail sources tk retries outcomes errs extAborted now hsrc hfail hnoab

/-- Witness for C6 with `maxRetries = 2`: exactly 3 attempts. -/
theorem c6_retry_ceiling_witness :
    runLoadTask [("s", sampleSource)] (sampleKey 0) 2 alwaysFailOutcomes
        (fun _ => false) 7 =
      (Except.error (LoadError.network (classifyError AttemptError.networkError false)),
        3) :=
  c6_retry_ceiling [("s", sampleSource)] (sampleKey 0) 2 alwaysFailOutcomes
    (fun _ => AttemptError.networkError) (fun _ => false) 7 (by decide)
    (fun _ => rfl) (fun _ => rfl)

/-- C7: enqueueing a task whose key already has exactly one pending task
never duplicates and never downgrades: afterwards there is exactly one
pending task for the key, at HIGH if either request is HIGH and otherwise
at the existing task's unchanged priority, which never decreases. -/
theorem c7_enqueue_escalate_only (q : LoadingQueue) (t ex : LoadingTask)
    (pre post : List LoadingTask)
    (hsplit : q.tasks = pre ++ ex :: post)
    (hexkey : taskKey ex = taskKey t)
    (hpre : taskKey t ∉ pre.map taskKey)
    (hpost : taskKey t ∉ post.map taskKey) :
    ∃ (pre2 post2 : List LoadingTask),
      (q.enqueue t).tasks = pre2 ++
        ({ ex with priority :=
          if t.priority = TaskPriority.HIGH ∨ ex.priority = TaskPriority.HIGH
            then TaskPriority.HIGH else ex.priority } : LoadingTask) :: post2 ∧
      taskKey t ∉ pre2.map taskKey ∧ taskKey t ∉ post2.map taskKey ∧
      priorityValue ex.priority ≤ priorityValue
        (if t.priority = TaskPriority.HIGH ∨ ex.priority = TaskPriority.HIGH
          then TaskPriority.HIGH else ex.priority) := by
  have hfind : findTask (taskKey t) q.tasks = some (pre, ex, post) := by
    rw [hsplit]
    exact findTask_append hpre hexkey
  have henq : q.enqueue t =
      (if t.priority = TaskPriority.HIGH ∧ ex.priority ≠ TaskPriority.HIGH
        then { q with tasks :=
          (insertByPriority { ex with priority := TaskPriority.HIGH } (pre ++ post)) }
        else q) := by
    unfold LoadingQueue.enqueue
    rw [hfind]
  by_cases hcond : t.priority = TaskPriority.HIGH ∧ ex.priority ≠ TaskPriority.HIGH
  · obtain ⟨l1, l2, hins, hsplit2⟩ :=
      insertByPriority_split { ex with priority := TaskPriority.HIGH } (pre ++ post)
    have hifp : (if t.priority = TaskPriority.HIGH ∨ ex.priority = TaskPriority.HIGH
        then TaskPriority.HIGH else ex.priority) = TaskPriority.HIGH :=
      if_pos (Or.inl hcond.1)
    refine ⟨l1, l2, ?_, ?_, ?_, ?_⟩
    · rw [henq, if_pos hcond, hifp]
      show insertByPriority { ex with priority := TaskPriority.HIGH } (pre ++ post) =
        l1 ++ { ex with priority := TaskPriority.HIGH } :: l2
      exact hins
    · intro hmem
      have h2 : taskKey t ∈ (l1 ++ l2).map taskKey := by
        rw [List.map_append]
        exact List.mem_append.mpr (Or.inl hmem)
      rw [← hsplit2, List.map_append] at h2
      rcases List.mem_append.mp h2 with h3 | h3
      · exact hpre h3
      · exact hpost h3
    · intro hmem
      have h2 : taskKey t ∈ (l1 ++ l2).map taskKey := by
        rw [List.map_append]
        exact List.mem_append.mpr (Or.inr hmem)
      rw [← hsplit2, List.map_append] at h2
      rcases List.mem_append.mp h2 with h3 | h3
      · exact hpre h3
      · exact hpost h3
    · rw [hifp]
      exact priorityValue_le_three ex.priority
  · have hprio : (if t.priority = TaskPriority.HIGH ∨ ex.priority = TaskPriority.HIGH
        then TaskPriority.HIGH else ex.priority) = ex.priority := by
      by_cases ht : t.priority = TaskPriority.HIGH
      · have hx : ex.priority = TaskPriority.HIGH := by
          by_contra hxx
          exact hcond ⟨ht, hxx⟩
        rw [if_pos (Or.inl ht), hx]
      · by_cases hx : ex.priority = TaskPriority.HIGH
        · rw [if_pos (Or.inr hx), hx]
        · rw [if_neg (by simp [ht, hx])]
    refine ⟨pre, post, ?_, hpre, hpost, ?_⟩
    · rw [henq, if_neg hcond, hprio, task_update_self, hsplit]
    · rw [hprio]

/-- Witness for C7: LOW then HIGH for the same key leaves one task at
HIGH. -/
theorem c7_enqueue_escalate_only_witness :
    ∃ (pre2 post2 : List LoadingTask),
      (c7QueueLow.enqueue c7HighTask).tasks = pre2 ++
        ({ c7LowTask with priority :=
          if c7HighTask.priority = TaskPriority.HIGH ∨
              c7LowTask.priority = TaskPriority.HIGH
            then TaskPriority.HIGH else c7LowTask.priority } : LoadingTask) :: post2 ∧
      taskKey c7HighTask ∉ pre2.map taskKey ∧
      taskKey c7HighTask ∉ post2.map taskKey ∧
      priorityValue c7LowTask.priority ≤ priorityValue
        (if c7HighTask.priority = TaskPriority.HIGH ∨
            c7LowTask.priority = TaskPriority.HIGH
          then TaskPriority.HIGH else c7LowTask.priority) :=
  c7_enqueue_escalate_only c7QueueLow c7HighTask c7LowTask [] [] (by decide)
    (by decide) (by decide) (by decide)

/-- C8: after enqueueing any tasks with pairwise-distinct keys into an
empty queue, the pending list is sorted by strictly decreasing priority
class with ties in arrival order (each priority class's subsequence equals
its subsequence of the input), and successive dequeues return exactly that
list front-first up to the concurrency ceiling. -/
theorem c8_priority_order_stable (input : List LoadingTask) (maxConcurrent : Nat)
    (hkeys : (input.map taskKey).Nodup) :
    ((input.foldl LoadingQueue.enqueue (mkLoadingQueue maxConcurrent)).tasks.Pairwise
      prioGE) ∧
    (∀ p, (input.foldl LoadingQueue.enqueue
          (mkLoadingQueue maxConcurrent)).tasks.filter
        (fun x => decide (x.priority = p)) =
      input.filter (fun x => decide (x.priority = p))) ∧
    (∀ n, LoadingQueue.drain n
        (input.foldl LoadingQueue.enqueue (mkLoadingQueue maxConcurrent)) =
      (input.foldl LoadingQueue.enqueue (mkLoadingQueue maxConcurrent)).tasks.take
        (min n maxConcurrent)) := by
  obtain ⟨g1, g2, g3, g4, g5⟩ :=
    enqueue_fold_spec input (mkLoadingQueue maxConcurrent)
      (by simp [mkLoadingQueue]) (by simpa [mkLoadingQueue] using hkeys)
  refine ⟨g1, ?_, ?_⟩
  · intro p
    simpa [mkLoadingQueue] using g2 p
  · intro n
    have hdisj : ∀ t ∈ (input.foldl LoadingQueue.enqueue
        (mkLoadingQueue maxConcurrent)).tasks,
        taskKey t ∉ (input.foldl LoadingQueue.enqueue
          (mkLoadingQueue maxConcurrent)).active := by
      intro t _ hmem
      rw [g4] at hmem
      simp [mkLoadingQueue] at hmem
    have hnd : ((input.foldl LoadingQueue.enqueue
        (mkLoadingQueue maxConcurrent)).tasks.map taskKey).Nodup := by
      refine (g3.nodup_iff).mpr ?_
      simpa [mkLoadingQueue] using hkeys
    rw [drain_spec n _ hdisj hnd, g4, g5]
    simp [mkLoadingQueue]

/-- Witness for C8 at a concrete five-task arrival sequence, checking the
HIGH class and ten dequeues under ceiling 3. -/
theorem c8_priority_order_stable_witness :
    ((c8Input.foldl LoadingQueue.enqueue (mkLoadingQueue 3)).tasks.Pairwise prioGE) ∧
    ((c8Input.foldl LoadingQueue.enqueue (mkLoadingQueue 3)).tasks.filter
        (fun x => decide (x.priority = TaskPriority.HIGH)) =
      c8Input.filter (fun x => decide (x.priority = TaskPriority.HIGH))) ∧
    (LoadingQueue.drain 10 (c8Input.foldl LoadingQueue.enqueue (mkLoadingQueue 3)) =
      (c8Input.foldl LoadingQueue.enqueue (mkLoadingQueue 3)).tasks.take (min 10 3)) := by
  have h := c8_priority_order_stable c8Input 3 (by decide)
  exact ⟨h.1, h.2.1 TaskPriority.HIGH, h.2.2 10⟩

/-- C9: after each cache operation the byte counter equals the sum of the
sizes of the cached tiles, and a tile built from a successful fetch has
`size` equal to its payload's byte length. -/
theorem c9_memory_accounting (c : TileCache) (h : c.WF) (k : String) (t : Tile)
    (now maxAge n : Nat) (tk : TileKey) (data : ArrayBufferM) :
    ((c.get k now).2).currentMemory = sumSizes ((c.get k now).2).map ∧
    (c.set k t).currentMemory = sumSizes (c.set k t).map ∧
    ((c.remove k).2).currentMemory = sumSizes ((c.remove k).2).map ∧
    c.clear.currentMemory = sumSizes c.clear.map ∧
    c.evictLRU.currentMemory = sumSizes c.evictLRU.map ∧
    (c.evictByAge now maxAge).currentMemory = sumSizes (c.evictByAge now maxAge).map ∧
    (c.evictN n).currentMemory = sumSizes (c.evictN n).map ∧
    (mkLoadedTile tk data now).size = data.byteLength :=
  ⟨(wf_get h k now).memOk, (set_spec h k t).1.memOk, (wf_remove h k).memOk,
    (wf_clear h).memOk, (wf_evictLRU h).memOk, (wf_evictByAge h now maxAge).memOk,
    (wf_evictN h n).memOk, rfl⟩

/-- Witness for C9 at a concrete cache. -/
theorem c9_memory_accounting_witness :
    (((mkTileCache 3 50).get "A" 2).2).currentMemory =
      sumSizes (((mkTileCache 3 50).get "A" 2).2).map ∧
    ((mkTileCache 3 50).set "A" (sampleTile 5 1)).currentMemory =
      sumSizes ((mkTileCache 3 50).set "A" (sampleTile 5 1)).map ∧
    (((mkTileCache 3 50).remove "A").2).currentMemory =
      sumSizes (((mkTileCache 3 50).remove "A").2).map ∧
    (mkTileCache 3 50).clear.currentMemory = sumSizes (mkTileCache 3 50).clear.map ∧
    (mkTileCache 3 50).evictLRU.currentMemory =
      sumSizes (mkTileCache 3 50).evictLRU.map ∧
    ((mkTileCache 3 50).evictByAge 2 3).currentMemory =
      sumSizes ((mkTileCache 3 50).evictByAge 2 3).map ∧
    ((mkTileCache 3 50).evictN 1).currentMemory =
      sumSizes ((mkTileCache 3 50).evictN 1).map ∧
    (mkLoadedTile (sampleKey 0) { bytes := [0, 0] } 2).size =
      ArrayBufferM.byteLength { bytes := [0, 0] } :=
  c9_memory_accounting (mkTileCache 3 50) (wf_mkTileCache 3 50) "A" (sampleTile 5 1)
    2 3 1 (sampleKey 0) { bytes := [0, 0] }

/-- C10: `replace` with a string pattern substitutes only the first
occurrence: whenever the first occurrence of the placeholder sits after a
prefix `u` containing no earlier occurrence, the replacement rewrites that
occurrence alone and leaves all of the remainder — including any later
occurrences — verbatim; concretely, an XYZ URL built over a template with
every placeholder doubled substitutes the first copies and returns the
second copies untouched. -/
theorem c10_replace_first_occurrence_only :
    (∀ (pat rep u v : List Char), pat ≠ [] →
      (∀ i, i < u.length → startsWith pat ((u ++ pat ++ v).drop i) = false) →
      replaceFirst pat rep (u ++ pat ++ v) = u ++ rep ++ v) ∧
    XYZDataSource.getUrl c10Source
        { x := 1, y := 2, z := 3, source := "dup", layer := "l" } =
      "/t/1/2/3/\x7bx\x7d/\x7by\x7d/\x7bz\x7d/".toList := by
  constructor
  · intro pat rep u v hne hfirst
    have h2 : ∀ i, i < u.length →
        startsWith pat ((u ++ (pat ++ v)).drop i) = false := by
      intro i hi
      have h3 := hfirst i hi
      rwa [List.append_assoc] at h3
    have h4 := replaceFirst_at_first pat rep v hne u h2
    rw [List.append_assoc, List.append_assoc]
    exact h4
  · decide

/-- Witness for C10: a pattern occurring twice has only its first
occurrence replaced. -/
theorem c10_replace_first_occurrence_only_witness :
    replaceFirst ['a'] ['b'] (['c'] ++ ['a'] ++ ['a']) = ['c'] ++ ['b'] ++ ['a'] :=
  c10_replace_first_occurrence_only.1 ['a'] ['b'] ['c'] ['a'] (by decide) (by decide)

end OpenEarth
